import Mathlib

/-!
Shallow embedding of the vimwiki-markdown-rs preprocessing and
link-resolution pipeline (src/links.rs, src/commands.rs, src/lib.rs).

Strings are modelled as lists of characters.  The only filesystem access
of the pipeline, the existence probe used to classify a link as
wiki-internal, is modelled as an abstract predicate parameter
`fs : List Char → Bool`.  Sites where the Rust source can panic
(`unwrap`, `panic!`) are modelled with `Option`/`Except`.
-/

set_option maxRecDepth 10000

def str (s : String) : List Char := s.data

/-- ASCII whitespace class of the regex crate, used to model `\s` / `\S`. -/
def rsWhitespace (c : Char) : Bool :=
  c == ' ' || c == '\t' || c == '\n' || c == '\r' || c == '\x0b' || c == '\x0c'

/-- Prepend text to the first part of a split result. -/
def prependHead (x : List Char) : List (List Char) → List (List Char)
  | [] => [x]
  | h :: t => (x ++ h) :: t

/-- Rust `str::split(c)`: n separators give n+1 parts. -/
def splitOnChar (c : Char) : List Char → List (List Char)
  | [] => [[]]
  | a :: rest =>
    if a = c then [] :: splitOnChar c rest
    else prependHead [a] (splitOnChar c rest)

/-- Does `pat` occur as a contiguous substring of the second argument? -/
def containsPat (pat : List Char) : List Char → Bool
  | [] => pat.isPrefixOf []
  | c :: rest => pat.isPrefixOf (c :: rest) || containsPat pat rest

/-- Split at the first occurrence of `pat`: `(before, after-the-occurrence)`. -/
def splitFirstPat (pat : List Char) : List Char → Option (List Char × List Char)
  | [] => none
  | c :: rest =>
    if pat.isPrefixOf (c :: rest) then some ([], (c :: rest).drop pat.length)
    else (splitFirstPat pat rest).map (fun p => (c :: p.1, p.2))

/-- Split at the last occurrence of `pat`: `(before, after-the-occurrence)`. -/
def splitLastPat (pat : List Char) : List Char → Option (List Char × List Char)
  | [] => none
  | c :: rest =>
    match splitLastPat pat rest with
    | some p => some (c :: p.1, p.2)
    | none =>
      if pat.isPrefixOf (c :: rest) then some ([], (c :: rest).drop pat.length)
      else none

/-- Scanner for Rust `str::replace(pat, "")`: `skip` counts characters of a
detected occurrence that still have to be consumed. -/
def removeAllGo (pat : List Char) (skip : Nat) : List Char → List Char
  | [] => []
  | c :: rest =>
    match skip with
    | n + 1 => removeAllGo pat n rest
    | 0 =>
      if 0 < pat.length ∧ pat.isPrefixOf (c :: rest) = true then
        removeAllGo pat (pat.length - 1) rest
      else c :: removeAllGo pat 0 rest

/-- Rust `str::replace(pat, "")`: delete every non-overlapping,
left-to-right occurrence of `pat`. -/
def removeAll (pat : List Char) (s : List Char) : List Char :=
  removeAllGo pat 0 s

/-- links.rs `handle_spaces`: percent-encode every space as `%20`. -/
def handleSpaces : List Char → List Char
  | [] => []
  | c :: rest => (if c = ' ' then str "%20" else [c]) ++ handleSpaces rest

/-! ## Path model (Unix semantics of `std::path`, `path_clean`, `pathdiff`) -/

inductive Comp where
  | root
  | cur
  | par
  | norm (seg : List Char)
deriving DecidableEq

def notCur : Comp → Bool
  | Comp.cur => false
  | _ => true

def nonEmptySeg (x : List Char) : Bool := !x.isEmpty

def classifySeg (seg : List Char) : Comp :=
  if seg = str "." then Comp.cur else if seg = str ".." then Comp.par else Comp.norm seg

def rawSegs (s : List Char) : List Comp :=
  ((splitOnChar '/' s).filter nonEmptySeg).map classifySeg

/-- `std::path::Path::components` on Unix: leading root, `.` segments dropped
except a leading one of a relative path, empty segments dropped. -/
def components (s : List Char) : List Comp :=
  if s.head? = some '/' then Comp.root :: (rawSegs s).filter notCur
  else
    match rawSegs s with
    | Comp.cur :: rest => Comp.cur :: rest.filter notCur
    | l => l.filter notCur

def rstripSlashes (s : List Char) : List Char :=
  (s.reverse.dropWhile (fun c => c == '/')).reverse

/-- `std::path::Path::parent` on Unix: the textual prefix without the final
component (`none` for the root and the empty path). -/
def parent (s : List Char) : Option (List Char) :=
  match components s with
  | [] => none
  | [Comp.root] => none
  | _ =>
    match splitLastPat ['/'] (rstripSlashes s) with
    | none => some []
    | some (d, _) =>
      let d' := rstripSlashes d
      if d' = [] ∧ s.head? = some '/' then some ['/'] else some d'

/-- `std::path::Path::file_name`: the last component when it is a normal one. -/
def fileName (s : List Char) : Option (List Char) :=
  match (components s).getLast? with
  | some (Comp.norm n) => some n
  | _ => none

/-- Stem of a file name: everything before the last `.`, except that a name
whose only `.` is leading is its own stem. -/
def stemOf (name : List Char) : List Char :=
  match splitLastPat ['.'] name with
  | some ([], _) => name
  | some (st, _) => st
  | none => name

/-- `std::path::Path::file_stem`. -/
def fileStem (s : List Char) : Option (List Char) := (fileName s).map stemOf

def isAbsolute (s : List Char) : Bool := s.head? == some '/'

/-- `std::path::PathBuf::join` (push) on Unix. -/
def joinP (a b : List Char) : List Char :=
  if isAbsolute b then b
  else if a = [] ∨ a.getLast? = some '/' then a ++ b
  else a ++ '/' :: b

/-- `std::path::Path::with_extension`: replace the final component's
extension (the path is returned unchanged when it has no file name). -/
def withExtension (s ext : List Char) : List Char :=
  match fileName s with
  | none => s
  | some name =>
    let dir := match splitLastPat ['/'] s with
      | some (d, _) => d ++ ['/']
      | none => []
    dir ++ stemOf name ++ '.' :: ext

/-- One step of the Go/Plan 9 lexical cleaning used by `path_clean`:
the accumulator is the stack of kept segments, most recent first. -/
def cleanPush (rooted : Bool) (acc : List (List Char)) (seg : List Char) : List (List Char) :=
  if seg = [] ∨ seg = str "." then acc
  else if seg = str ".." then
    match acc with
    | top :: t => if top = str ".." then seg :: acc else t
    | [] => if rooted then [] else [seg]
  else seg :: acc

/-- `path_clean::PathClean::clean`: purely lexical `.`/`..` collapsing. -/
def clean (s : List Char) : List Char :=
  let rooted := isAbsolute s
  let out := ((splitOnChar '/' s).foldl (cleanPush rooted) []).reverse
  if rooted then '/' :: List.intercalate ['/'] out
  else if out = [] then str "." else List.intercalate ['/'] out

def compText : Comp → List Char
  | Comp.root => ['/']
  | Comp.cur => str "."
  | Comp.par => str ".."
  | Comp.norm n => n

/-- `PathBuf::from_iter` over components: successive `push`. -/
def collectComps (l : List Comp) : List Char :=
  l.foldl (fun acc c => joinP acc (compText c)) []

def diffLoop : List Comp → List Comp → List Comp → Option (List Comp)
  | [], [], comps => some comps
  | a :: ra, [], comps => some (comps ++ a :: ra)
  | [], _ :: rb, comps => diffLoop [] rb (comps ++ [Comp.par])
  | a :: ra, b :: rb, comps =>
    if comps = [] ∧ a = b then diffLoop ra rb comps
    else if b = Comp.cur then diffLoop ra rb (comps ++ [a])
    else if b = Comp.par then none
    else some (comps ++ [Comp.par] ++ rb.map (fun _ => Comp.par) ++ a :: ra)

/-- `pathdiff::diff_paths`. -/
def diffPaths (path base : List Char) : Option (List Char) :=
  if isAbsolute path != isAbsolute base then
    if isAbsolute path then some path else none
  else (diffLoop (components path) (components base) []).map collectComps

/-! ## links.rs -/

/-- links.rs `handle_fragment`: split on `#`; more than one `#` means
"no fragment, whole string is the path". -/
def handleFragment (uri : List Char) : List Char × Option (List Char) :=
  match splitOnChar '#' uri with
  | [a] => (a, none)
  | [a, b] => (a, some b)
  | _ => (uri, none)

/-- links.rs `fix_link_vimwiki` (`none` models the source's `unwrap` panics). -/
def fixLinkVimwiki (uri : List Char) : Option (List Char) :=
  let p := handleFragment uri
  match parent p.1, fileStem p.1 with
  | some d, some st =>
    let url2 := joinP d st
    some (match p.2 with
      | some f => url2 ++ str ".html#" ++ handleSpaces f
      | none => url2 ++ str ".html")
  | _, _ => none

/-- Scanner for splitting on the regex `\s+"`: `run` is the pending maximal
whitespace run read so far. A quote right after a nonempty run closes a
separator; any other character folds the pending run into the current part. -/
def splitTitleGo (run : List Char) : List Char → List (List Char)
  | [] => [run]
  | c :: rest =>
    if rsWhitespace c then splitTitleGo (run ++ [c]) rest
    else if c = '"' ∧ run ≠ [] then [] :: splitTitleGo [] rest
    else prependHead (run ++ [c]) (splitTitleGo [] rest)

/-- Split on the regex `\s+"` (non-overlapping, leftmost matches): each
separator is a maximal whitespace run immediately followed by a quote. -/
def splitTitle (s : List Char) : List (List Char) :=
  splitTitleGo [] s

/-- links.rs `handle_title` (inner fn of `fix_link_rest`). -/
def handleTitle (uri : List Char) : List Char × Option (List Char) :=
  match splitTitle uri with
  | [a] => (a, none)
  | [a, b] => (a, some b)
  | _ => (uri, none)

/-- links.rs `fix_link_rest` (`none` models the `diff_paths(..).unwrap()` panic). -/
def fixLinkRest (uri inputDir outputDir : List Char) : Option (List Char) :=
  let t := handleTitle uri
  let urlRaw := t.1
  let url2 : Option (List Char) :=
    if (str "file:").isPrefixOf urlRaw then
      let r := removeAll (str "file:") urlRaw
      some (if isAbsolute r then r else joinP inputDir r)
    else if (str "local:").isPrefixOf urlRaw then
      diffPaths (joinP inputDir (removeAll (str "local:") urlRaw)) outputDir
    else some urlRaw
  url2.map (fun u =>
    let u2 := handleSpaces (clean u)
    match t.2 with
    | some title => u2 ++ str " \"" ++ title
    | none => u2)

/-- links.rs `is_vimwiki_link`; the filesystem probe is the abstract
predicate `fs`. -/
def isVimwikiLink (fs : List Char → Bool) (inputDir uri ext : List Char) : Bool :=
  fs (withExtension (joinP inputDir (handleFragment uri).1) ext)

/-- links.rs `fix_link`. -/
def fixLink (fs : List Char → Bool) (alt uri inputFile outputDir ext : List Char) :
    Option (List Char) :=
  match parent inputFile with
  | none => none
  | some inputDir =>
    let u := if isVimwikiLink fs inputDir uri ext then fixLinkVimwiki uri
             else fixLinkRest uri inputDir outputDir
    u.map (fun v => str "[" ++ alt ++ str "](" ++ v ++ str ")")

/-! ## commands.rs: the three regexes and the variable store -/

/-- Lazy scan for `.*?\}'` with `.` not matching a newline: find the
earliest closing brace immediately followed by a quote; returns the scanned
middle and the rest after the quote. -/
def scanCloseQuote : List Char → Option (List Char × List Char)
  | [] => none
  | c :: rest =>
    if c = '\x7d' ∧ rest.head? = some '\'' then some ([], rest.tail)
    else if c = '\n' then none
    else (scanCloseQuote rest).map (fun p => (c :: p.1, p.2))

/-- The `(\s.*?\}|\})` alternation of RE_VAR followed by the closing quote:
returns the `after` capture (including its final brace) and the rest. -/
def tryAfterVar : List Char → Option (List Char × List Char)
  | [] => none
  | c :: rest =>
    if rsWhitespace c then
      match scanCloseQuote rest with
      | some (mid, r) => some (c :: mid ++ ['\x7d'], r)
      | none => none
    else if c = '\x7d' then
      if rest.head? = some '\'' then some (['\x7d'], rest.tail) else none
    else none

/-- The lazy `\S+?` variable name of RE_VAR: starting from the accumulated
name `v`, grow it one non-whitespace character at a time until the `after`
part matches. -/
def varGo (v : List Char) : List Char → Option (List Char × List Char × List Char)
  | [] => none
  | c :: u2 =>
    match tryAfterVar (c :: u2) with
    | some (a, r) => some (v, a, r)
    | none => if rsWhitespace c then none else varGo (v ++ [c]) u2

/-- `\$` then the lazy `\S+?` name then the after-group. -/
def matchVarAt : List Char → Option (List Char × List Char × List Char)
  | c :: u => if rsWhitespace c then none else varGo [c] u
  | [] => none

/-- The lazy `.*?` before-part of RE_VAR: try each `$` from the left; on
failure the dollar joins the before-text. `.` does not match a newline. -/
def beforeScan : List Char → Option (List Char × List Char × List Char × List Char)
  | [] => none
  | c :: u =>
    if c = '$' then
      match matchVarAt u with
      | some (v, a, r) => some ([], v, a, r)
      | none => (beforeScan u).map (fun q => (c :: q.1, q.2))
    else if c = '\n' then none
    else (beforeScan u).map (fun q => (c :: q.1, q.2))

/-- Leftmost match of RE_VAR
`'\{(?P<before>.*?)\$(?P<var>\S+?)(?P<after>(\s.*?\}|\}))'`:
returns (text before the match, before, var, after, rest after the match). -/
def findVarMatch : List Char → Option (List Char × List Char × List Char × List Char × List Char)
  | [] => none
  | c :: rest =>
    if c = '\'' ∧ rest.head? = some '\x7b' then
      match beforeScan rest.tail with
      | some q => some ([], q)
      | none => (findVarMatch rest).map (fun q => (c :: q.1, q.2))
    else (findVarMatch rest).map (fun q => (c :: q.1, q.2))

def varUnknownMsg (v : List Char) : List Char :=
  str "Cannot find variable `" ++ v ++ str "`"

/-- Fuelled worker for `RE_VAR.replace_all` with the panicking closure of
`VarStore::replace_variables`; every match consumes at least one character,
so fuel `s.length` suffices (see `findVarMatch_rest_lt`). -/
def replaceVarsGo (m : List (List Char × List Char)) :
    Nat → List Char → Except (List Char) (List Char)
  | 0, s => .ok s
  | fuel + 1, s =>
    match findVarMatch s with
    | none => .ok s
    | some (pre, before, v, after, rest) =>
      match List.lookup v m with
      | none => .error (varUnknownMsg v)
      | some val =>
        (replaceVarsGo m fuel rest).map
          (fun tail => pre ++ str "'\x7b" ++ before ++ val ++ after.dropLast ++ str "\x7d'" ++ tail)

/-- commands.rs `VarStore::replace_variables` (`Except.error` models the
`panic!` on an unknown variable name). -/
def replaceVariables (m : List (List Char × List Char)) (s : List Char) :
    Except (List Char) (List Char) :=
  replaceVarsGo m s.length s

def varScanGo : Nat → List Char → List (List Char)
  | 0, _ => []
  | fuel + 1, s =>
    match findVarMatch s with
    | none => []
    | some (_, _, v, _, rest) => v :: varScanGo fuel rest

/-- The variable names of all RE_VAR matches of a text, in scan order. -/
def varScan (s : List Char) : List (List Char) := varScanGo s.length s

def defOpen : List Char := str "<'''"

def defClose : List Char := str "'''>"

/-- First match of the greedy RE_DEF `<'''(?P<data>(.|\n)*)'''>`: from the
first occurrence of the opening marker to the last occurrence of the
closing one. -/
def findDefMatch (s : List Char) : Option (List Char × List Char × List Char) :=
  match splitFirstPat defOpen s with
  | none => none
  | some (pre, afterOpen) =>
    match splitLastPat defClose afterOpen with
    | none => none
    | some (data, rest) => some (pre, data, rest)

def clearVarsGo : Nat → List Char → List Char
  | 0, s => s
  | fuel + 1, s =>
    match findDefMatch s with
    | none => s
    | some (pre, _, rest) => pre ++ clearVarsGo fuel rest

/-- commands.rs `VarStore::clear_variables`: `RE_DEF.replace_all(text, "")`. -/
def clearVariables (s : List Char) : List Char := clearVarsGo s.length s

/-- Scanner for RE_DEF_SINGLE `(?P<key>\S*?)\{(?P<value>[^}]*?)\}`: `run` is
the maximal non-whitespace run before the current position (the lazy key). -/
def pairGo (run : List Char) : List Char → Option (List Char × List Char × List Char)
  | [] => none
  | c :: rest =>
    if c = '\x7b' then
      match splitFirstPat ['\x7d'] rest with
      | some (v, r) => some (run, v, r)
      | none => pairGo (run ++ [c]) rest
    else if rsWhitespace c then pairGo [] rest
    else pairGo (run ++ [c]) rest

def findPairMatch (s : List Char) : Option (List Char × List Char × List Char) := pairGo [] s

/-- Fold all RE_DEF_SINGLE matches of the block data into the store; the
freshest binding is consed on top, so `List.lookup` sees later duplicate
keys first (`HashMap::insert` overwrite semantics). -/
def pairsGo : Nat → List (List Char × List Char) → List Char → List (List Char × List Char)
  | 0, acc, _ => acc
  | fuel + 1, acc, s =>
    match findPairMatch s with
    | none => acc
    | some (k, v, rest) => pairsGo fuel ((k, v) :: acc) rest

/-- commands.rs `VarStore::parse_variables`. -/
def parseVariables (input : List Char) : List (List Char × List Char) :=
  match findDefMatch input with
  | none => []
  | some (_, data, _) => pairsGo data.length [] data

/-- commands.rs `VarStore::parse` / `preprocess_variables`. -/
def preprocessVariables (markdown : List Char) : Except (List Char) (List Char) :=
  replaceVariables (parseVariables markdown) (clearVariables markdown)

/-- Attempt RE_CMD right after a `'{`: `(\S+)\s+(\S+)\s+(.*?)\}'`. -/
def tryCmdAt (u : List Char) : Option (List Char × List Char × List Char × List Char) :=
  let e := u.takeWhile (fun c => !rsWhitespace c)
  let u1 := u.dropWhile (fun c => !rsWhitespace c)
  if e.isEmpty then none
  else
    match u1 with
    | [] => none
    | _ =>
      let u2 := u1.dropWhile rsWhitespace
      let t := u2.takeWhile (fun c => !rsWhitespace c)
      let u3 := u2.dropWhile (fun c => !rsWhitespace c)
      if t.isEmpty then none
      else
        match u3 with
        | [] => none
        | _ =>
          let u4 := u3.dropWhile rsWhitespace
          match scanCloseQuote u4 with
          | some (d, r) => some (e, t, d, r)
          | none => none

/-- Leftmost match of RE_CMD
`'\{(?P<element>\S+)\s+(?P<type>\S+)\s+(?P<data>.*?)\}'`:
returns (pre, element, type, data, rest). -/
def findCmdMatch : List Char → Option (List Char × List Char × List Char × List Char × List Char)
  | [] => none
  | c :: rest =>
    if c = '\'' ∧ rest.head? = some '\x7b' then
      match tryCmdAt rest.tail with
      | some q => some ([], q)
      | none => (findCmdMatch rest).map (fun q => (c :: q.1, q.2))
    else (findCmdMatch rest).map (fun q => (c :: q.1, q.2))

def stripCmdsGo : Nat → List Char → List Char
  | 0, s => s
  | fuel + 1, s =>
    match findCmdMatch s with
    | none => s
    | some (pre, _, _, _, rest) => pre ++ stripCmdsGo fuel rest

/-- Final pass of commands.rs `apply_commands`:
`RE_CMD.replace_all(document.to_string(), "")`. -/
def stripCommands (s : List Char) : List Char := stripCmdsGo s.length s

def styleAbbrevs : List (List Char) :=
  [str "s", str "st", str "sty", str "styl", str "style"]

def parentAbbrevs : List (List Char) :=
  [str "p", str "pa", str "par", str "pare", str "paren", str "parent"]

def attrUnknownMsg (t : List Char) : List Char :=
  str "HTML attribute `" ++ t ++ str "` unknown"

def elemUnknownMsg (e : List Char) : List Char :=
  str "Element type `" ++ e ++ str "` unknown"

/-- The per-text-node directive handling of commands.rs `apply_commands`:
look up the first RE_CMD match of the node's text, resolve the
attribute-type token and then the element-target token against their closed
vocabularies, returning the (attribute, value) written to the parent
element; `Except.error` models the two `panic!` calls. -/
def applyCmdTokens (text : List Char) : Except (List Char) (Option (List Char × List Char)) :=
  match findCmdMatch text with
  | none => .ok none
  | some (_, element, ty, data, _) =>
    if styleAbbrevs.contains ty then
      if parentAbbrevs.contains element then .ok (some (str "style", data))
      else .error (elemUnknownMsg element)
    else .error (attrUnknownMsg ty)

/-! ## lib.rs: the orchestrator's markdown-link regex -/

/-- Attempt the link regex `\[(?P<title>.*)\]\((?P<uri>(.)*)\)` right after
a `[`: greedy title then greedy uri, both confined to the current line, so
the title ends at the last `](` of the line that still has a `)` after it
and the uri ends at the last `)` of the line. -/
def tryLinkAt (s : List Char) : Option (List Char × List Char × List Char) :=
  let line := s.takeWhile (fun c => c != '\n')
  let afterLine := s.dropWhile (fun c => c != '\n')
  match splitLastPat [')'] line with
  | none => none
  | some (w, tailNP) =>
    match splitLastPat (str "](") w with
    | none => none
    | some (title, uri) => some (title, uri, tailNP ++ afterLine)

/-- Leftmost match of the orchestrator's link regex in lib.rs
`get_body_html`: returns (pre, title, uri, rest). -/
def findLinkMatch : List Char → Option (List Char × List Char × List Char × List Char)
  | [] => none
  | c :: rest =>
    if c = '[' then
      match tryLinkAt rest with
      | some q => some ([], q)
      | none => (findLinkMatch rest).map (fun q => (c :: q.1, q.2))
    else (findLinkMatch rest).map (fun q => (c :: q.1, q.2))

def replaceLinksGo (f : List Char → List Char → List Char) : Nat → List Char → List Char
  | 0, s => s
  | fuel + 1, s =>
    match findLinkMatch s with
    | none => s
    | some (pre, title, uri, rest) => pre ++ f title uri ++ replaceLinksGo f fuel rest

/-- The orchestrator's `re.replace_all` over markdown links, the resolving
closure abstracted as `f title uri`. -/
def replaceLinks (f : List Char → List Char → List Char) (s : List Char) : List Char :=
  replaceLinksGo f s.length s

/-! ## Sanity examples: the Rust unit tests of links.rs, replayed -/

example : fixLinkVimwiki (str "another_file") = some (str "another_file.html") := by decide
example : fixLinkVimwiki (str "../another_file") = some (str "../another_file.html") := by decide
example : fixLinkVimwiki (str "another_file.wiki") = some (str "another_file.html") := by decide
example : fixLinkVimwiki (str "another_file#fragment") =
    some (str "another_file.html#fragment") := by decide
example :
    fixLink (fun _ => false) (str "alt") (str "../foo.png")
      (str "/abs/path/to/vimwiki/bar/mdfile.wiki") (str "/abs/path/to/vimwiki/site_html/bar/")
      (str "wiki") = some (str "[alt](../foo.png)") := by decide
example :
    fixLink (fun _ => false) (str "alt") (str "local:../foo.png")
      (str "/abs/path/to/vimwiki/bar/mdfile.wiki") (str "/abs/path/to/vimwiki/site_html/bar/")
      (str "wiki") = some (str "[alt](../../foo.png)") := by decide
example :
    fixLink (fun _ => false) (str "alt") (str "local:../foo.png \"Title\"")
      (str "/abs/path/to/vimwiki/bar/mdfile.wiki") (str "/abs/path/to/vimwiki/site_html/bar/")
      (str "wiki") = some (str "[alt](../../foo.png \"Title\")") := by decide
example :
    fixLink (fun _ => false) (str "alt") (str "file:../images/foo with spaces.png")
      (str "/abs/path/to/vimwiki/bar/mdfile.wiki") (str "/abs/path/to/vimwiki/site_html/bar/")
      (str "wiki") = some (str "[alt](/abs/path/to/vimwiki/images/foo%20with%20spaces.png)") := by
  decide
example :
    fixLink (fun _ => false) (str "alt") (str "local:/abs/path/to/vimwiki/images/foo.png")
      (str "/abs/path/to/vimwiki/bar/mdfile.wiki") (str "/abs/path/to/vimwiki/site_html/bar/")
      (str "wiki") = some (str "[alt](../../images/foo.png)") := by decide

/-! ## Generic string lemmas -/

theorem prependHead_cons (x h : List Char) (t : List (List Char)) :
    prependHead x (h :: t) = (x ++ h) :: t := rfl

theorem splitOnChar_ne_nil (c : Char) (s : List Char) : splitOnChar c s ≠ [] := by
  induction s with
  | nil => simp [splitOnChar]
  | cons a rest ih =>
    simp only [splitOnChar]
    split
    · simp
    · cases hr : splitOnChar c rest <;> simp [prependHead]

theorem splitOnChar_of_not_mem {c : Char} {s : List Char} (h : c ∉ s) :
    splitOnChar c s = [s] := by
  induction s with
  | nil => rfl
  | cons a rest ih =>
    simp only [List.mem_cons, not_or] at h
    have ha : ¬ a = c := fun he => h.1 he.symm
    simp only [splitOnChar, if_neg ha, ih h.2]
    rfl

theorem splitOnChar_append {c : Char} {a : List Char} (b : List Char) (h : c ∉ a) :
    splitOnChar c (a ++ c :: b) = a :: splitOnChar c b := by
  induction a with
  | nil => simp [splitOnChar]
  | cons x a2 ih =>
    simp only [List.mem_cons, not_or] at h
    have hx : ¬ x = c := fun he => h.1 he.symm
    show splitOnChar c (x :: (a2 ++ c :: b)) = (x :: a2) :: splitOnChar c b
    simp only [splitOnChar, if_neg hx]
    rw [ih h.2]
    rfl

theorem length_splitOnChar (c : Char) (s : List Char) :
    (splitOnChar c s).length = s.count c + 1 := by
  induction s with
  | nil => simp [splitOnChar]
  | cons a rest ih =>
    simp only [splitOnChar]
    split
    · rename_i ha
      simp [List.count_cons, ha, ih]
    · rename_i ha
      cases hr : splitOnChar c rest with
      | nil => exact absurd hr (splitOnChar_ne_nil c rest)
      | cons p t =>
        rw [hr] at ih
        simp [prependHead, List.count_cons, ha, ← ih]

theorem handleFragment_of_not_mem {uri : List Char} (h : '#' ∉ uri) :
    handleFragment uri = (uri, none) := by
  simp [handleFragment, splitOnChar_of_not_mem h]

theorem handleFragment_single {a : List Char} (b : List Char) (ha : '#' ∉ a) (hb : '#' ∉ b) :
    handleFragment (a ++ '#' :: b) = (a, some b) := by
  simp [handleFragment, splitOnChar_append b ha, splitOnChar_of_not_mem hb]

theorem handleFragment_multi {uri : List Char} (h : 2 ≤ uri.count '#') :
    handleFragment uri = (uri, none) := by
  have hl : 2 + 1 ≤ (splitOnChar '#' uri).length := by
    rw [length_splitOnChar]; omega
  unfold handleFragment
  cases hs : splitOnChar '#' uri with
  | nil => exfalso; rw [hs] at hl; simp at hl
  | cons x l1 =>
    cases l1 with
    | nil => exfalso; rw [hs] at hl; simp at hl
    | cons y l2 =>
      cases l2 with
      | nil => exfalso; rw [hs] at hl; simp at hl
      | cons z l3 => simp

/-- C8: a URI containing two or more `#` characters yields no fragment and
is treated whole as the path, both by `handle_fragment` and hence by the
internal-link classification probe; a URI with exactly one `#` splits into
the path before it and the fragment after it. -/
theorem c8_fragment_rule (uri : List Char) :
    (2 ≤ uri.count '#' →
      handleFragment uri = (uri, none) ∧
      ∀ fs inputDir ext, isVimwikiLink fs inputDir uri ext =
        fs (withExtension (joinP inputDir uri) ext)) ∧
    (∀ a b, uri = a ++ '#' :: b → '#' ∉ a → '#' ∉ b → handleFragment uri = (a, some b)) := by
  constructor
  · intro h
    refine ⟨handleFragment_multi h, fun fs inputDir ext => ?_⟩
    unfold isVimwikiLink
    rw [handleFragment_multi h]
  · intro a b he ha hb
    subst he
    exact handleFragment_single b ha hb

theorem c8_fragment_rule_witness :
    handleFragment (str "a#b#c") = (str "a#b#c", none) ∧
    handleFragment (str "page#sec") = (str "page", some (str "sec")) :=
  ⟨((c8_fragment_rule (str "a#b#c")).1 (by decide)).1,
   (c8_fragment_rule (str "page#sec")).2 (str "page") (str "sec") (by decide) (by decide)
     (by decide)⟩

/-! ## Path lemmas for single-segment extensionless names -/

theorem head?_ne_of_forall {s : List Char} {x : Char} (h : ∀ c ∈ s, c ≠ x) :
    ¬ s.head? = some x := by
  cases s with
  | nil => simp
  | cons a rest => simpa using h a (List.mem_cons_self a rest)

theorem isPrefixOf_cons_of_ne {p c : Char} (pt rest : List Char) (h : ¬ p = c) :
    (p :: pt).isPrefixOf (c :: rest) = false := by
  simp [List.isPrefixOf_cons₂]
  intro he
  exact absurd he h

theorem splitLastPat_eq_none {p : Char} {pt s : List Char} (h : p ∉ s) :
    splitLastPat (p :: pt) s = none := by
  induction s with
  | nil => rfl
  | cons c rest ih =>
    simp only [List.mem_cons, not_or] at h
    have hc : ¬ p = c := h.1
    simp only [splitLastPat, ih h.2, isPrefixOf_cons_of_ne pt rest hc]
    rfl

theorem splitFirstPat_eq_none {p : Char} {pt s : List Char} (h : p ∉ s) :
    splitFirstPat (p :: pt) s = none := by
  induction s with
  | nil => rfl
  | cons c rest ih =>
    simp only [List.mem_cons, not_or] at h
    simp only [splitFirstPat, ih h.2, isPrefixOf_cons_of_ne pt rest h.1]
    rfl

theorem rstripSlashes_of_not_mem {s : List Char} (h : '/' ∉ s) : rstripSlashes s = s := by
  unfold rstripSlashes
  have hd : List.dropWhile (fun c => c == '/') s.reverse = s.reverse := by
    cases hr : s.reverse with
    | nil => rfl
    | cons x xs =>
      have hx : x ∈ s := by
        have hm : x ∈ s.reverse := by rw [hr]; exact List.mem_cons_self x xs
        simpa using hm
      have hne : (x == '/') = false := by
        simp only [beq_eq_false_iff_ne, ne_eq]
        intro he
        exact h (he ▸ hx)
      simp [List.dropWhile_cons, hne]
  rw [hd, List.reverse_reverse]

theorem classifySeg_norm {P : List Char} (hdot : '.' ∉ P) (hP : P ≠ []) :
    classifySeg P = Comp.norm P := by
  have h1 : ¬ P = str "." := by
    intro he
    exact hdot (he ▸ (by decide : '.' ∈ str "."))
  have h2 : ¬ P = str ".." := by
    intro he
    exact hdot (he ▸ (by decide : '.' ∈ str ".."))
  simp [classifySeg, h1, h2]

theorem rawSegs_single {P : List Char} (hs : '/' ∉ P) (hdot : '.' ∉ P) (hP : P ≠ []) :
    rawSegs P = [Comp.norm P] := by
  unfold rawSegs
  rw [splitOnChar_of_not_mem hs]
  have hne : nonEmptySeg P = true := by
    simp [nonEmptySeg, List.isEmpty_iff, hP]
  simp [hne, classifySeg_norm hdot hP]

theorem components_single {P : List Char} (hs : '/' ∉ P) (hdot : '.' ∉ P) (hP : P ≠ []) :
    components P = [Comp.norm P] := by
  unfold components
  rw [if_neg (head?_ne_of_forall (fun c hc he => hs (by rw [← he]; exact hc))), rawSegs_single hs hdot hP]
  rfl

theorem parent_single {P : List Char} (hs : '/' ∉ P) (hdot : '.' ∉ P) (hP : P ≠ []) :
    parent P = some [] := by
  unfold parent
  rw [components_single hs hdot hP]
  simp only [rstripSlashes_of_not_mem hs, splitLastPat_eq_none hs]

theorem fileName_single {P : List Char} (hs : '/' ∉ P) (hdot : '.' ∉ P) (hP : P ≠ []) :
    fileName P = some P := by
  unfold fileName
  rw [components_single hs hdot hP]
  rfl

theorem stemOf_id {P : List Char} (hdot : '.' ∉ P) : stemOf P = P := by
  unfold stemOf
  rw [splitLastPat_eq_none hdot]

theorem fileStem_single {P : List Char} (hs : '/' ∉ P) (hdot : '.' ∉ P) (hP : P ≠ []) :
    fileStem P = some P := by
  unfold fileStem
  rw [fileName_single hs hdot hP]
  simp [stemOf_id hdot]

theorem joinP_nil (b : List Char) : joinP [] b = b := by
  unfold joinP
  by_cases h : isAbsolute b = true
  · simp [h]
  · simp [h]

/-- C1: when the existence probe `input_dir.join(P).with_extension(ext)`
reports a file, `fix_link` classifies the link as wiki-internal and
rewrites a one-segment extensionless path `P` to `P.html`; with a single
fragment, `P#frag` becomes `P.html#frag` with the spaces of the fragment
percent-encoded as `%20`. -/
theorem c1_internal_link (fs : List Char → Bool)
    (alt inputFile inputDir outputDir ext P frag : List Char)
    (hpar : parent inputFile = some inputDir) (hP : P ≠ [])
    (hchars : ∀ c ∈ P, c ≠ '/' ∧ c ≠ '.' ∧ c ≠ '#') (hfrag : '#' ∉ frag)
    (hfile : fs (withExtension (joinP inputDir P) ext) = true) :
    fixLink fs alt P inputFile outputDir ext =
      some (str "[" ++ alt ++ str "](" ++ P ++ str ".html)") ∧
    fixLink fs alt (P ++ '#' :: frag) inputFile outputDir ext =
      some (str "[" ++ alt ++ str "](" ++ P ++ str ".html#" ++ handleSpaces frag ++ str ")") := by
  have hs : '/' ∉ P := fun hc => (hchars _ hc).1 rfl
  have hdot : '.' ∉ P := fun hc => (hchars _ hc).2.1 rfl
  have hhash : '#' ∉ P := fun hc => (hchars _ hc).2.2 rfl
  have hfrag1 : handleFragment P = (P, none) := handleFragment_of_not_mem hhash
  have hfrag2 : handleFragment (P ++ '#' :: frag) = (P, some frag) :=
    handleFragment_single frag hhash hfrag
  have hvim1 : fixLinkVimwiki P = some (P ++ str ".html") := by
    unfold fixLinkVimwiki
    rw [hfrag1]
    simp only [parent_single hs hdot hP, fileStem_single hs hdot hP, joinP_nil]
  have hvim2 : fixLinkVimwiki (P ++ '#' :: frag) =
      some (P ++ str ".html#" ++ handleSpaces frag) := by
    unfold fixLinkVimwiki
    rw [hfrag2]
    simp only [parent_single hs hdot hP, fileStem_single hs hdot hP, joinP_nil]
  have hcls1 : isVimwikiLink fs inputDir P ext = true := by
    unfold isVimwikiLink
    rw [hfrag1]
    exact hfile
  have hcls2 : isVimwikiLink fs inputDir (P ++ '#' :: frag) ext = true := by
    unfold isVimwikiLink
    rw [hfrag2]
    exact hfile
  constructor
  · unfold fixLink
    rw [hpar]
    simp only [hcls1, if_true, hvim1, Option.map_some]
    simp [List.append_assoc]
    rfl
  · unfold fixLink
    rw [hpar]
    simp only [hcls2, if_true, hvim2, Option.map_some]
    simp [List.append_assoc]

theorem c1_internal_link_witness :
    fixLink (fun p => p == str "/wiki/page.wiki") (str "T") (str "page") (str "/wiki/doc.md")
      (str "/out") (str "wiki") = some (str "[T](page.html)") ∧
    fixLink (fun p => p == str "/wiki/page.wiki") (str "T") (str "page#a b") (str "/wiki/doc.md")
      (str "/out") (str "wiki") = some (str "[T](page.html#a%20b)") := by
  have h := c1_internal_link (fun p => p == str "/wiki/page.wiki") (str "T") (str "/wiki/doc.md")
    (str "/wiki") (str "/out") (str "wiki") (str "page") (str "a b")
    (by decide) (by decide) (by decide) (by decide) (by decide)
  exact ⟨h.1, h.2⟩

/-! ## Lemmas on prefixes, `removeAll`, titles, and the non-internal branch -/

theorem isPrefixOf_append_self (p r : List Char) : p.isPrefixOf (p ++ r) = true := by
  induction p with
  | nil => simp [List.isPrefixOf]
  | cons a p2 ih => simp [List.isPrefixOf_cons₂, ih]

theorem removeAllGo_skip (pat l rest : List Char) :
    removeAllGo pat l.length (l ++ rest) = removeAllGo pat 0 rest := by
  induction l with
  | nil => rfl
  | cons c l2 ih => exact ih

theorem removeAll_cons_self (p : Char) (pt s : List Char) :
    removeAll (p :: pt) ((p :: pt) ++ s) = removeAll (p :: pt) s := by
  show removeAllGo (p :: pt) 0 (p :: (pt ++ s)) = removeAllGo (p :: pt) 0 s
  have hcond : 0 < (p :: pt).length ∧ (p :: pt).isPrefixOf (p :: (pt ++ s)) = true := by
    refine ⟨by simp, ?_⟩
    exact isPrefixOf_append_self (p :: pt) s
  simp only [removeAllGo, if_pos hcond]
  have hlen : (p :: pt).length - 1 = pt.length := by simp
  rw [hlen]
  exact removeAllGo_skip (p :: pt) pt s

theorem removeAll_of_not_contains {pat s : List Char} (h : containsPat pat s = false) :
    removeAll pat s = s := by
  induction s with
  | nil => rfl
  | cons c rest ih =>
    unfold containsPat at h
    simp only [Bool.or_eq_false_iff] at h
    have hcond : ¬ (0 < pat.length ∧ pat.isPrefixOf (c :: rest) = true) := by
      rintro ⟨-, hk⟩
      rw [h.1] at hk
      exact Bool.false_ne_true hk
    show removeAllGo pat 0 (c :: rest) = c :: rest
    simp only [removeAllGo, if_neg hcond]
    exact congrArg (c :: ·) (ih h.2)

theorem handleTitle_single {uri : List Char} (h : splitTitle uri = [uri]) :
    handleTitle uri = (uri, none) := by
  unfold handleTitle
  rw [h]

/-- `fix_link` on a link the probe classifies as non-internal delegates to
`fix_link_rest` and re-wraps. -/
theorem fixLink_rest_branch {fs : List Char → Bool}
    {alt uri inputFile inputDir outputDir ext : List Char}
    (hpar : parent inputFile = some inputDir)
    (hcls : isVimwikiLink fs inputDir uri ext = false) :
    fixLink fs alt uri inputFile outputDir ext =
      (fixLinkRest uri inputDir outputDir).map
        (fun v => str "[" ++ alt ++ str "](" ++ v ++ str ")") := by
  unfold fixLink
  rw [hpar]
  simp [hcls]

theorem fixLinkRest_file {uri inputDir outputDir : List Char}
    (htitle : splitTitle uri = [uri])
    (hpre : (str "file:").isPrefixOf uri = true) :
    fixLinkRest uri inputDir outputDir =
      some (handleSpaces (clean (if isAbsolute (removeAll (str "file:") uri)
        then removeAll (str "file:") uri
        else joinP inputDir (removeAll (str "file:") uri)))) := by
  unfold fixLinkRest
  rw [handleTitle_single htitle]
  simp [hpre]

theorem fixLinkRest_local {uri inputDir outputDir : List Char}
    (htitle : splitTitle uri = [uri])
    (hfile : (str "file:").isPrefixOf uri = false)
    (hpre : (str "local:").isPrefixOf uri = true) :
    fixLinkRest uri inputDir outputDir =
      (diffPaths (joinP inputDir (removeAll (str "local:") uri)) outputDir).map
        (fun d => handleSpaces (clean d)) := by
  unfold fixLinkRest
  rw [handleTitle_single htitle]
  simp [hpre, hfile]

/-- C3 counterexample: `fix_link` uses `str::replace("file:", "")`, which
deletes every occurrence of `file:`, not only the leading one: on
`file:a/file:b.png` the embedded `file:` is deleted too, so the result is
not the input-dir-resolved remainder-after-the-prefix `a/file:b.png`. -/
theorem c3_file_prefix_cex :
    fixLink (fun _ => false) (str "alt") (str "file:a/file:b.png") (str "/in/doc.wiki")
      (str "/out") (str "wiki") = some (str "[alt](/in/a/b.png)") ∧
    fixLink (fun _ => false) (str "alt") (str "file:a/file:b.png") (str "/in/doc.wiki")
      (str "/out") (str "wiki") ≠
      some (str "[alt](" ++ handleSpaces (clean (joinP (str "/in") (str "a/file:b.png")))
        ++ str ")") :=
  ⟨by decide, by decide⟩

/-- C3 (amended): for a title-free URI with the `file:` prefix that the
probe classifies as non-internal, `fix_link` deletes every occurrence of
`file:`; an absolute remainder is used as-is and a relative one is resolved
against the input document's directory, in both cases lexically cleaned and
space-encoded — and the result never depends on the output directory. -/
theorem c3_file_prefix (fs : List Char → Bool)
    (alt uri inputFile inputDir outputDir ext : List Char)
    (hpar : parent inputFile = some inputDir)
    (htitle : splitTitle uri = [uri])
    (hpre : (str "file:").isPrefixOf uri = true)
    (hcls : isVimwikiLink fs inputDir uri ext = false) :
    fixLink fs alt uri inputFile outputDir ext =
      some (str "[" ++ alt ++ str "](" ++
        handleSpaces (clean (if isAbsolute (removeAll (str "file:") uri)
          then removeAll (str "file:") uri
          else joinP inputDir (removeAll (str "file:") uri))) ++ str ")") ∧
    (∀ outputDir2, fixLink fs alt uri inputFile outputDir ext =
      fixLink fs alt uri inputFile outputDir2 ext) := by
  have hmain : ∀ od : List Char, fixLink fs alt uri inputFile od ext =
      some (str "[" ++ alt ++ str "](" ++
        handleSpaces (clean (if isAbsolute (removeAll (str "file:") uri)
          then removeAll (str "file:") uri
          else joinP inputDir (removeAll (str "file:") uri))) ++ str ")") := by
    intro od
    rw [fixLink_rest_branch hpar hcls, fixLinkRest_file htitle hpre]
    rfl
  exact ⟨hmain outputDir, fun od2 => (hmain outputDir).trans (hmain od2).symm⟩

theorem c3_file_prefix_witness :
    fixLink (fun _ => false) (str "alt") (str "file:../images/foo.png")
      (str "/a/b/bar/doc.wiki") (str "/a/b/site/bar") (str "wiki") =
      some (str "[alt](/a/b/images/foo.png)") := by
  have h := ( c3_file_prefix (fun _ => false) (str "alt") (str "file:../images/foo.png")
    (str "/a/b/bar/doc.wiki") (str "/a/b/bar") (str "/a/b/site/bar") (str "wiki")
    (by decide) (by decide) (by decide) (by decide)).1
  rw [h]
  decide

theorem isPrefixOf_ex {p l : List Char} (h : p.isPrefixOf l = true) : ∃ r, l = p ++ r := by
  induction p generalizing l with
  | nil => exact ⟨l, rfl⟩
  | cons a p2 ih =>
    cases l with
    | nil => simp [List.isPrefixOf] at h
    | cons b l2 =>
      rw [List.isPrefixOf_cons₂] at h
      simp only [Bool.and_eq_true, beq_iff_eq] at h
      obtain ⟨r, hr⟩ := ih h.2
      exact ⟨r, by rw [← h.1, hr]; rfl⟩

/-- C4 counterexample: `fix_link` uses `str::replace("local:", "")`, which
deletes every occurrence of `local:`, not only the leading one: on
`local:a/local:b.png` the embedded `local:` is deleted too, so the result
is not the output-dir-relative form of the remainder-after-the-prefix
`a/local:b.png` resolved against the input directory. -/
theorem c4_local_prefix_cex :
    fixLink (fun _ => false) (str "alt") (str "local:a/local:b.png") (str "/in/doc.wiki")
      (str "/out") (str "wiki") = some (str "[alt](../in/a/b.png)") ∧
    fixLink (fun _ => false) (str "alt") (str "local:a/local:b.png") (str "/in/doc.wiki")
      (str "/out") (str "wiki") ≠
      (diffPaths (joinP (str "/in") (str "a/local:b.png")) (str "/out")).map
        (fun d => str "[alt](" ++ handleSpaces (clean d) ++ str ")") :=
  ⟨by decide, by decide⟩

/-- C4 (amended): for a title-free URI with the `local:` prefix that the
probe classifies as non-internal, `fix_link` deletes every occurrence of
`local:` from the URI, resolves what remains against the input document's
directory and returns the lexical relative path from the output directory
to that resolved path (cleaned and space-encoded); on the spec's example
the result is exactly the lexical diff towards `/a/b/foo.png`. -/
theorem c4_local_prefix (fs : List Char → Bool)
    (alt uri inputFile inputDir outputDir ext : List Char)
    (hpar : parent inputFile = some inputDir)
    (htitle : splitTitle uri = [uri])
    (hpre : (str "local:").isPrefixOf uri = true)
    (hcls : isVimwikiLink fs inputDir uri ext = false) :
    fixLink fs alt uri inputFile outputDir ext =
      (diffPaths (joinP inputDir (removeAll (str "local:") uri)) outputDir).map
        (fun d => str "[" ++ alt ++ str "](" ++ handleSpaces (clean d) ++ str ")") ∧
    fixLink (fun _ => false) (str "alt") (str "local:../foo.png") (str "/a/b/bar/doc.wiki")
      (str "/a/b/site/bar") (str "wiki") = some (str "[alt](../../foo.png)") ∧
    diffPaths (str "/a/b/foo.png") (str "/a/b/site/bar") = some (str "../../foo.png") := by
  refine ⟨?_, by decide, by decide⟩
  obtain ⟨rest, hrest⟩ := isPrefixOf_ex hpre
  have hfile : (str "file:").isPrefixOf uri = false := by
    subst hrest
    simp [str, List.isPrefixOf_cons₂]
  rw [fixLink_rest_branch hpar hcls, fixLinkRest_local htitle hfile hpre]
  simp [Option.map_map]
  rfl

theorem c4_local_prefix_witness :
    fixLink (fun _ => false) (str "alt") (str "local:../x.png") (str "/a/b/bar/doc.wiki")
      (str "/a/b/site/bar") (str "wiki") =
      (diffPaths (joinP (str "/a/b/bar") (removeAll (str "local:") (str "local:../x.png")))
          (str "/a/b/site/bar")).map
        (fun d => str "[" ++ str "alt" ++ str "](" ++ handleSpaces (clean d) ++ str ")") :=
  ( c4_local_prefix (fun _ => false) (str "alt") (str "local:../x.png")
    (str "/a/b/bar/doc.wiki") (str "/a/b/bar") (str "/a/b/site/bar") (str "wiki")
    (by decide) (by decide) (by decide) (by decide)).1

/-! ## Lemmas about the lexical cleaner -/

theorem mem_splitOnChar_not_sep {c : Char} {s : List Char} :
    ∀ p ∈ splitOnChar c s, c ∉ p := by
  induction s with
  | nil =>
    intro p hp
    simp only [splitOnChar, List.mem_singleton] at hp
    simp [hp]
  | cons a rest ih =>
    intro p hp
    simp only [splitOnChar] at hp
    by_cases ha : a = c
    · rw [if_pos ha] at hp
      rcases List.mem_cons.mp hp with h | h
      · simp [h]
      · exact ih p h
    · rw [if_neg ha] at hp
      cases hr : splitOnChar c rest with
      | nil => exact absurd hr (splitOnChar_ne_nil c rest)
      | cons h0 t =>
        rw [hr, prependHead_cons] at hp
        rcases List.mem_cons.mp hp with h | h
        · subst h
          intro hm
          rcases List.mem_cons.mp hm with h | h
          · exact ha h.symm
          · exact ih h0 (hr ▸ List.mem_cons_self h0 t) h
        · exact ih p (hr ▸ List.mem_cons_of_mem h0 h)

theorem mem_splitOnChar_sub {c : Char} {s : List Char} :
    ∀ p ∈ splitOnChar c s, ∀ x ∈ p, x ∈ s := by
  induction s with
  | nil =>
    intro p hp
    simp only [splitOnChar, List.mem_singleton] at hp
    simp [hp]
  | cons a rest ih =>
    intro p hp x hx
    simp only [splitOnChar] at hp
    by_cases ha : a = c
    · rw [if_pos ha] at hp
      rcases List.mem_cons.mp hp with h | h
      · subst h; simp at hx
      · exact List.mem_cons_of_mem a (ih p h x hx)
    · rw [if_neg ha] at hp
      cases hr : splitOnChar c rest with
      | nil => exact absurd hr (splitOnChar_ne_nil c rest)
      | cons h0 t =>
        rw [hr, prependHead_cons] at hp
        rcases List.mem_cons.mp hp with h | h
        · subst h
          rcases List.mem_cons.mp hx with h | h
          · exact h ▸ List.mem_cons_self a rest
          · exact List.mem_cons_of_mem a
              (ih h0 (hr ▸ List.mem_cons_self h0 t) x h)
        · exact List.mem_cons_of_mem a (ih p (hr ▸ List.mem_cons_of_mem h0 h) x hx)

theorem intercalate_two (c : Char) (x y : List Char) (t : List (List Char)) :
    List.intercalate [c] (x :: y :: t) = x ++ c :: List.intercalate [c] (y :: t) := by
  simp [List.intercalate, List.intersperse]

theorem splitOnChar_intercalate {c : Char} :
    ∀ out : List (List Char), out ≠ [] → (∀ p ∈ out, c ∉ p) →
      splitOnChar c (List.intercalate [c] out) = out := by
  intro out
  induction out with
  | nil => intro h; exact absurd rfl h
  | cons x t ih =>
    intro _ hmem
    cases t with
    | nil =>
      have : List.intercalate [c] [x] = x := by simp [List.intercalate]
      rw [this, splitOnChar_of_not_mem (hmem x (List.mem_cons_self x []))]
    | cons y t2 =>
      rw [intercalate_two]
      rw [splitOnChar_append _ (hmem x (List.mem_cons_self x (y :: t2)))]
      rw [ih (by simp) (fun p hp => hmem p (List.mem_cons_of_mem x hp))]

theorem mem_intercalate {c : Char} {x : Char} :
    ∀ out : List (List Char), x ∈ List.intercalate [c] out →
      x = c ∨ ∃ p ∈ out, x ∈ p := by
  intro out
  induction out with
  | nil => intro h; simp [List.intercalate] at h
  | cons p t ih =>
    intro hx
    cases t with
    | nil =>
      have : List.intercalate [c] [p] = p := by simp [List.intercalate]
      rw [this] at hx
      exact Or.inr ⟨p, List.mem_cons_self p [], hx⟩
    | cons y t2 =>
      rw [intercalate_two] at hx
      rcases List.mem_append.mp hx with h | h
      · exact Or.inr ⟨p, List.mem_cons_self p (y :: t2), h⟩
      · rcases List.mem_cons.mp h with h | h
        · exact Or.inl h
        · rcases ih h with h | ⟨q, hq, hxq⟩
          · exact Or.inl h
          · exact Or.inr ⟨q, List.mem_cons_of_mem p hq, hxq⟩

theorem head?_append_left {a : List Char} (b : List Char) (h : a ≠ []) :
    (a ++ b).head? = a.head? := by
  cases a with
  | nil => exact absurd rfl h
  | cons x t => rfl

theorem mem_cleanPush {rooted : Bool} {acc : List (List Char)} {sg x : List Char}
    (h : x ∈ cleanPush rooted acc sg) : x ∈ acc ∨ x = sg ∨ x = str ".." := by
  unfold cleanPush at h
  split at h
  · exact Or.inl h
  · split at h
    · split at h
      · split at h
        · rename_i top t htop
          rcases List.mem_cons.mp h with h2 | h2
          · exact Or.inr (Or.inl h2)
          · exact Or.inl h2
        · rename_i top t htop
          exact Or.inl (List.mem_cons_of_mem top h)
      · split at h
        · simp at h
        · exact Or.inr (Or.inl (List.mem_singleton.mp h))
    · rcases List.mem_cons.mp h with h2 | h2
      · exact Or.inr (Or.inl h2)
      · exact Or.inl h2

/-- Every element surviving the cleaning fold is `..`, an element of the
initial stack, or one of the scanned segments. -/
theorem mem_cleanFold {rooted : Bool} :
    ∀ (segs : List (List Char)) (acc : List (List Char)) (x : List Char),
      x ∈ List.foldl (cleanPush rooted) acc segs →
      x ∈ acc ∨ x = str ".." ∨ x ∈ segs := by
  intro segs
  induction segs with
  | nil => intro acc x hx; exact Or.inl hx
  | cons sg rest ih =>
    intro acc x hx
    rw [List.foldl_cons] at hx
    rcases ih (cleanPush rooted acc sg) x hx with h | h | h
    · rcases mem_cleanPush h with h2 | h2 | h2
      · exact Or.inl h2
      · exact Or.inr (Or.inr (h2 ▸ List.mem_cons_self sg rest))
      · exact Or.inr (Or.inl h2)
    · exact Or.inr (Or.inl h)
    · exact Or.inr (Or.inr (List.mem_cons_of_mem sg h))

/-- Shape invariant of the cleaning fold: the stack is some `..`-free
segments on top of a block of `..`s, and a rooted path produces no `..`. -/
theorem cleanFold_shape {rooted : Bool} :
    ∀ (segs : List (List Char)), (∀ x ∈ segs, '/' ∉ x) →
    ∀ (acc ns : List (List Char)) (k : Nat),
      acc = ns ++ List.replicate k (str "..") →
      (∀ x ∈ ns, x ≠ [] ∧ x ≠ str "." ∧ x ≠ str ".." ∧ '/' ∉ x) →
      (rooted = true → k = 0) →
      ∃ ns2 k2, List.foldl (cleanPush rooted) acc segs = ns2 ++ List.replicate k2 (str "..") ∧
        (∀ x ∈ ns2, x ≠ [] ∧ x ≠ str "." ∧ x ≠ str ".." ∧ '/' ∉ x) ∧
        (rooted = true → k2 = 0) := by
  intro segs
  induction segs with
  | nil =>
    intro _ acc ns k hacc hns hrk
    exact ⟨ns, k, hacc, hns, hrk⟩
  | cons sg rest ih =>
    intro hsegs acc ns k hacc hns hrk
    have hrest : ∀ x ∈ rest, '/' ∉ x := fun x hx => hsegs x (List.mem_cons_of_mem sg hx)
    have hsg : '/' ∉ sg := hsegs sg (List.mem_cons_self sg rest)
    rw [List.foldl_cons]
    by_cases h1 : sg = [] ∨ sg = str "."
    · have hpush : cleanPush rooted acc sg = acc := by
        unfold cleanPush
        rw [if_pos h1]
      rw [hpush]
      exact ih hrest acc ns k hacc hns hrk
    · by_cases h2 : sg = str ".."
      · cases hnscase : ns with
        | nil =>
          cases hk : k with
          | zero =>
            have hacc2 : acc = [] := by rw [hacc, hnscase, hk]; rfl
            by_cases h3 : rooted = true
            · have hpush : cleanPush rooted acc sg = [] := by
                unfold cleanPush
                rw [if_neg h1, if_pos h2, hacc2, if_pos h3]
              rw [hpush]
              exact ih hrest [] [] 0 rfl (by simp) (fun _ => rfl)
            · have hpush : cleanPush rooted acc sg = [sg] := by
                unfold cleanPush
                rw [if_neg h1, if_pos h2, hacc2, if_neg h3]
              rw [hpush]
              refine ih hrest [sg] [] 1 ?_ (by simp) ?_
              · rw [h2]; rfl
              · intro hr; exact absurd hr h3
          | succ k0 =>
            have hacc2 : acc = str ".." :: List.replicate k0 (str "..") := by
              rw [hacc, hnscase, hk]; rfl
            have h3 : rooted = false := by
              cases hb : rooted with
              | false => rfl
              | true => exact absurd (hrk hb) (by rw [hk]; exact Nat.succ_ne_zero k0)
            have hpush : cleanPush rooted acc sg = sg :: acc := by
              unfold cleanPush
              rw [if_neg h1, if_pos h2, hacc2]
              show (if str ".." = str ".." then sg :: str ".." :: List.replicate k0 (str "..")
                else List.replicate k0 (str "..")) = sg :: str ".." :: List.replicate k0 (str "..")
              rw [if_pos rfl]
            rw [hpush]
            refine ih hrest (sg :: acc) [] (k0 + 2) ?_ (by simp) ?_
            · rw [h2, hacc2]; rfl
            · intro hr; rw [hr] at h3; exact absurd h3 (by simp)
        | cons n0 ns2 =>
          have hn0 : n0 ≠ [] ∧ n0 ≠ str "." ∧ n0 ≠ str ".." ∧ '/' ∉ n0 :=
            hns n0 (by rw [hnscase]; exact List.mem_cons_self n0 ns2)
          have hacc2 : acc = n0 :: (ns2 ++ List.replicate k (str "..")) := by
            rw [hacc, hnscase]; rfl
          have hpush : cleanPush rooted acc sg = ns2 ++ List.replicate k (str "..") := by
            unfold cleanPush
            rw [if_neg h1, if_pos h2, hacc2]
            show (if n0 = str ".." then sg :: n0 :: (ns2 ++ List.replicate k (str "..") )
              else ns2 ++ List.replicate k (str "..")) = ns2 ++ List.replicate k (str "..")
            rw [if_neg hn0.2.2.1]
          rw [hpush]
          exact ih hrest _ ns2 k rfl
            (fun x hx => hns x (by rw [hnscase]; exact List.mem_cons_of_mem n0 hx)) hrk
      · have hsgne : sg ≠ [] := fun he => h1 (Or.inl he)
        have hsgdot : sg ≠ str "." := fun he => h1 (Or.inr he)
        have hpush : cleanPush rooted acc sg = sg :: acc := by
          unfold cleanPush
          rw [if_neg h1, if_neg h2]
        rw [hpush]
        refine ih hrest (sg :: acc) (sg :: ns) k ?_ ?_ hrk
        · rw [hacc]; rfl
        · intro x hx
          rcases List.mem_cons.mp hx with h4 | h4
          · exact h4 ▸ ⟨hsgne, hsgdot, h2, hsg⟩
          · exact hns x h4

theorem cleanFold_normals {rooted : Bool} :
    ∀ (norms acc : List (List Char)),
      (∀ x ∈ norms, x ≠ [] ∧ x ≠ str "." ∧ x ≠ str "..") →
      List.foldl (cleanPush rooted) acc norms = norms.reverse ++ acc := by
  intro norms
  induction norms with
  | nil => intro acc _; simp
  | cons n rest ih =>
    intro acc hn
    have h0 := hn n (List.mem_cons_self n rest)
    have hpush : cleanPush rooted acc n = n :: acc := by
      unfold cleanPush
      rw [if_neg (by rintro (h | h); exacts [h0.1 h, h0.2.1 h]), if_neg h0.2.2]
    rw [List.foldl_cons, hpush, ih (n :: acc) (fun x hx => hn x (List.mem_cons_of_mem n hx))]
    simp

theorem cleanFold_pars :
    ∀ (k j : Nat),
      List.foldl (cleanPush false) (List.replicate j (str ".."))
        (List.replicate k (str "..")) = List.replicate (k + j) (str "..") := by
  intro k
  induction k with
  | zero => intro j; simp
  | succ k0 ih =>
    intro j
    rw [List.replicate_succ, List.foldl_cons]
    have hpush : cleanPush false (List.replicate j (str "..")) (str "..") =
        List.replicate (j + 1) (str "..") := by
      cases j with
      | zero => decide
      | succ j0 =>
        show cleanPush false (str ".." :: List.replicate j0 (str "..")) (str "..") =
          List.replicate (j0 + 2) (str "..")
        unfold cleanPush
        rw [if_neg (by decide), if_pos rfl]
        show (if str ".." = str ".." then
            str ".." :: str ".." :: List.replicate j0 (str "..")
          else List.replicate j0 (str "..")) = List.replicate (j0 + 2) (str "..")
        rw [if_pos rfl]
        simp [List.replicate_succ]
    rw [hpush, ih (j + 1)]
    congr 1
    omega

theorem cleanFold_fix {rooted : Bool} (ns : List (List Char)) (k : Nat)
    (hns : ∀ x ∈ ns, x ≠ [] ∧ x ≠ str "." ∧ x ≠ str "..")
    (hrk : rooted = true → k = 0) :
    List.foldl (cleanPush rooted) [] (List.replicate k (str "..") ++ ns) =
      ns.reverse ++ List.replicate k (str "..") := by
  rw [List.foldl_append]
  by_cases hb : rooted = true
  · have hk0 := hrk hb
    subst hk0
    simpa using cleanFold_normals ns [] hns
  · have hb2 : rooted = false := by
      cases rooted
      · rfl
      · exact absurd rfl hb
    subst hb2
    have h1 : List.foldl (cleanPush false) [] (List.replicate k (str "..")) =
        List.replicate k (str "..") := by
      simpa using cleanFold_pars k 0
    rw [h1, cleanFold_normals ns _ hns]

/-- The kept-segment list of `clean` is a run of `..`s followed by normal
segments (no `..` at all for a rooted path). -/
theorem clean_out (s : List Char) :
    ∃ norms k,
      (∀ x ∈ norms, x ≠ [] ∧ x ≠ str "." ∧ x ≠ str ".." ∧ '/' ∉ x) ∧
      (isAbsolute s = true → k = 0) ∧
      ((splitOnChar '/' s).foldl (cleanPush (isAbsolute s)) []).reverse =
        List.replicate k (str "..") ++ norms := by
  obtain ⟨ns2, k2, hfold, hns2, hrk2⟩ :=
    @cleanFold_shape (isAbsolute s) (splitOnChar '/' s)
      (fun x hx => mem_splitOnChar_not_sep x hx) [] [] 0 rfl (by simp) (fun _ => rfl)
  refine ⟨ns2.reverse, k2, ?_, hrk2, ?_⟩
  · intro x hx
    exact hns2 x (List.mem_reverse.mp hx)
  · rw [hfold, List.reverse_append, List.reverse_replicate]

theorem clean_chars {s : List Char} {x : Char} (hx : x ∈ clean s) :
    x ∈ s ∨ x = '/' ∨ x = '.' := by
  have hseg : ∀ p, p ∈ ((splitOnChar '/' s).foldl (cleanPush (isAbsolute s)) []).reverse →
      ∀ y ∈ p, y ∈ s ∨ y = '.' := by
    intro p hp y hy
    rcases mem_cleanFold (splitOnChar '/' s) [] p (List.mem_reverse.mp hp) with h | h | h
    · simp at h
    · subst h
      have : y = '.' := by
        simpa [str] using hy
      exact Or.inr this
    · exact Or.inl (mem_splitOnChar_sub p h y hy)
  simp only [clean] at hx
  by_cases hr : isAbsolute s = true
  · rw [if_pos hr] at hx
    rcases List.mem_cons.mp hx with h | h
    · exact Or.inr (Or.inl h)
    · rcases mem_intercalate _ h with h | ⟨p, hp, hyp⟩
      · exact Or.inr (Or.inl h)
      · rcases hseg p hp x hyp with h2 | h2
        · exact Or.inl h2
        · exact Or.inr (Or.inr h2)
  · rw [if_neg hr] at hx
    by_cases he : ((splitOnChar '/' s).foldl (cleanPush (isAbsolute s)) []).reverse = []
    · rw [if_pos he] at hx
      have : x = '.' := by
        simpa [str] using hx
      exact Or.inr (Or.inr this)
    · rw [if_neg he] at hx
      rcases mem_intercalate _ hx with h | ⟨p, hp, hyp⟩
      · exact Or.inr (Or.inl h)
      · rcases hseg p hp x hyp with h2 | h2
        · exact Or.inl h2
        · exact Or.inr (Or.inr h2)

theorem head?_intercalate {c : Char} {o0 : List Char} (rest : List (List Char)) (h : o0 ≠ []) :
    (List.intercalate [c] (o0 :: rest)).head? = o0.head? := by
  cases rest with
  | nil => simp [List.intercalate]
  | cons y t =>
    rw [intercalate_two]
    exact head?_append_left _ h

theorem clean_clean (s : List Char) : clean (clean s) = clean s := by
  obtain ⟨norms, k, hn, hk, hout⟩ := clean_out s
  have hnorm3 : ∀ x ∈ norms, x ≠ [] ∧ x ≠ str "." ∧ x ≠ str ".." :=
    fun x hx => ⟨(hn x hx).1, (hn x hx).2.1, (hn x hx).2.2.1⟩
  have hallout : ∀ x ∈ List.replicate k (str "..") ++ norms,
      x ≠ [] ∧ x ≠ str "." ∧ '/' ∉ x := by
    intro x hx
    rcases List.mem_append.mp hx with h | h
    · have := List.eq_of_mem_replicate h
      subst this
      refine ⟨by decide, by decide, by decide⟩
    · exact ⟨(hn x h).1, (hn x h).2.1, (hn x h).2.2.2⟩
  by_cases hr : isAbsolute s = true
  · have hk0 := hk hr
    subst hk0
    simp only [List.replicate, List.nil_append] at hout
    have hcs : clean s = '/' :: List.intercalate ['/'] norms := by
      simp only [clean]
      rw [if_pos hr, hout]
    rw [hcs]
    cases hnorm : norms with
    | nil => decide
    | cons o0 rest2 =>
      subst hnorm
      have h1 : isAbsolute ('/' :: List.intercalate ['/'] (o0 :: rest2)) = true := rfl
      have h2 : splitOnChar '/' ('/' :: List.intercalate ['/'] (o0 :: rest2)) =
          [] :: (o0 :: rest2) := by
        simp only [splitOnChar]
        rw [if_pos trivial, splitOnChar_intercalate (o0 :: rest2) (by simp)
          (fun p hp => (hn p hp).2.2.2)]
      have h3 : List.foldl (cleanPush true) [] ([] :: o0 :: rest2) =
          (o0 :: rest2).reverse := by
        rw [List.foldl_cons]
        have hemp : cleanPush true [] [] = [] := by decide
        rw [hemp]
        simpa using @cleanFold_normals true (o0 :: rest2) [] hnorm3
      simp only [clean, h1, h2, h3, List.reverse_reverse]
      exact if_pos trivial
  · have hr2 : isAbsolute s = false := by
      cases hb : isAbsolute s
      · rfl
      · exact absurd hb hr
    have hcs0 : clean s = (if (List.replicate k (str "..") ++ norms : List (List Char)) = []
        then str "." else List.intercalate ['/'] (List.replicate k (str "..") ++ norms)) := by
      simp only [clean]
      rw [if_neg hr, hout]
    by_cases hemp : (List.replicate k (str "..") ++ norms : List (List Char)) = []
    · rw [hcs0, if_pos hemp]
      decide
    · rw [hcs0, if_neg hemp]
      cases hocase : List.replicate k (str "..") ++ norms with
      | nil => exact absurd hocase hemp
      | cons o0 rest2 =>
        have ho0 : o0 ≠ [] ∧ o0 ≠ str "." ∧ '/' ∉ o0 :=
          hallout o0 (by rw [hocase]; exact List.mem_cons_self o0 rest2)
        have hoelem : ∀ p ∈ o0 :: rest2, '/' ∉ p := by
          intro p hp
          exact (hallout p (by rw [hocase]; exact hp)).2.2
        have habs : isAbsolute (List.intercalate ['/'] (o0 :: rest2)) = false := by
          unfold isAbsolute
          rw [head?_intercalate rest2 ho0.1]
          cases o0 with
          | nil => exact absurd rfl ho0.1
          | cons c0 t0 =>
            have : ¬ c0 = '/' := by
              intro he
              exact ho0.2.2 (he ▸ List.mem_cons_self c0 t0)
            simpa using this
        have hsplit : splitOnChar '/' (List.intercalate ['/'] (o0 :: rest2)) =
            o0 :: rest2 := by
          exact splitOnChar_intercalate (o0 :: rest2) (by simp) hoelem
        have hfold : List.foldl (cleanPush false) [] (o0 :: rest2) =
            norms.reverse ++ List.replicate k (str "..") := by
          rw [← hocase]
          exact cleanFold_fix norms k hnorm3 (fun h => absurd h (by simp))
        have hrev : (norms.reverse ++ List.replicate k (str "..")).reverse =
            o0 :: rest2 := by
          rw [List.reverse_append, List.reverse_replicate, List.reverse_reverse, hocase]
        simp only [clean, habs, hsplit, hfold, hrev]
        rw [if_neg (by simp), if_neg (by simp)]

theorem splitTitleGo_no_ws {s : List Char} (h : ∀ c ∈ s, rsWhitespace c = false) :
    splitTitleGo [] s = [s] := by
  induction s with
  | nil => rfl
  | cons c rest ih =>
    have hc := h c (List.mem_cons_self c rest)
    unfold splitTitleGo
    rw [if_neg (by simp [hc])]
    rw [if_neg (by rintro ⟨-, habs⟩; exact habs rfl)]
    rw [ih (fun x hx => h x (List.mem_cons_of_mem c hx))]
    rfl

theorem splitTitle_no_ws {s : List Char} (h : ∀ c ∈ s, rsWhitespace c = false) :
    splitTitle s = [s] :=
  splitTitleGo_no_ws h

theorem handleSpaces_id {s : List Char} (h : ' ' ∉ s) : handleSpaces s = s := by
  induction s with
  | nil => rfl
  | cons c rest ih =>
    simp only [List.mem_cons, not_or] at h
    unfold handleSpaces
    rw [if_neg (fun he => h.1 he.symm), ih h.2]
    rfl

/-- The pass-through (no `file:`/`local:` prefix) branch of `fix_link_rest`
on a title-free URI: lexical cleaning plus space encoding. -/
theorem fixLinkRest_plain {uri inputDir outputDir : List Char}
    (htitle : splitTitle uri = [uri])
    (hf : (str "file:").isPrefixOf uri = false)
    (hl : (str "local:").isPrefixOf uri = false) :
    fixLinkRest uri inputDir outputDir = some (handleSpaces (clean uri)) := by
  unfold fixLinkRest
  rw [handleTitle_single htitle]
  simp [hf, hl]

/-- C9 counterexample: resolution of the non-internal branch is not
idempotent.  The prefix-free URI `./file:a` is lexically cleaned to
`file:a`, which a second resolution run treats as a `file:`-prefixed link
and resolves against the input directory. -/
theorem c9_idempotence_cex :
    fixLinkRest (str "./file:a") (str "/in") (str "/out") = some (str "file:a") ∧
    fixLinkRest (str "file:a") (str "/in") (str "/out") = some (str "/in/a") ∧
    (fixLinkRest (str "./file:a") (str "/in") (str "/out")).bind
      (fun u => fixLinkRest u (str "/in") (str "/out")) ≠
      fixLinkRest (str "./file:a") (str "/in") (str "/out") :=
  ⟨by decide, by decide, by decide⟩

/-- C9 (amended): the non-internal resolution is idempotent on URIs that
contain no whitespace, carry no `file:`/`local:` prefix, and whose lexical
cleaning does not itself create such a prefix. -/
theorem c9_idempotence (inputDir outputDir uri : List Char)
    (hws : ∀ c ∈ uri, rsWhitespace c = false)
    (hf1 : (str "file:").isPrefixOf uri = false)
    (hl1 : (str "local:").isPrefixOf uri = false)
    (hf2 : (str "file:").isPrefixOf (clean uri) = false)
    (hl2 : (str "local:").isPrefixOf (clean uri) = false) :
    (fixLinkRest uri inputDir outputDir).bind (fun u => fixLinkRest u inputDir outputDir) =
      fixLinkRest uri inputDir outputDir := by
  have hsp : ' ' ∉ uri := fun hm => by
    have := hws ' ' hm
    simp [rsWhitespace] at this
  have hws2 : ∀ c ∈ clean uri, rsWhitespace c = false := by
    intro c hc
    rcases clean_chars hc with h | h | h
    · exact hws c h
    · subst h; rfl
    · subst h; rfl
  have hsp2 : ' ' ∉ clean uri := fun hm => by
    have := hws2 ' ' hm
    simp [rsWhitespace] at this
  have h1 : fixLinkRest uri inputDir outputDir = some (clean uri) := by
    rw [fixLinkRest_plain (splitTitle_no_ws hws) hf1 hl1, handleSpaces_id hsp2]
  have h2 : fixLinkRest (clean uri) inputDir outputDir = some (clean uri) := by
    rw [fixLinkRest_plain (splitTitle_no_ws hws2) hf2 hl2, handleSpaces_id ?x, clean_clean]
    case x => rw [clean_clean]; exact hsp2
  rw [h1]
  simpa using h2

theorem c9_idempotence_witness :
    (fixLinkRest (str "a/./b.png") (str "/in") (str "/out")).bind
      (fun u => fixLinkRest u (str "/in") (str "/out")) =
      fixLinkRest (str "a/./b.png") (str "/in") (str "/out") :=
  c9_idempotence (str "/in") (str "/out") (str "a/./b.png")
    (by decide) (by decide) (by decide) (by decide) (by decide)

/-! ## The directive applier: token vocabularies and the final strip pass -/

/-- C7: the directive token vocabularies are strict.  When the first
directive marker of a text node carries an attribute-type token outside
`s/st/sty/styl/style`, processing fails with the panic message naming that
token (the attribute-type is checked first); when the attribute-type is
accepted but the element-target token is outside `p/pa/par/pare/paren/parent`,
processing fails naming the element token.  There is no silent fallback. -/
theorem c7_strict_vocabulary (text pre e t d rest : List Char)
    (h : findCmdMatch text = some (pre, e, t, d, rest)) :
    (styleAbbrevs.contains t = false →
      applyCmdTokens text = Except.error (attrUnknownMsg t)) ∧
    (styleAbbrevs.contains t = true → parentAbbrevs.contains e = false →
      applyCmdTokens text = Except.error (elemUnknownMsg e)) := by
  constructor
  · intro ht
    have ht2 : t ∉ styleAbbrevs := by simpa using ht
    unfold applyCmdTokens
    rw [h]
    simp [ht2]
  · intro ht he
    have ht2 : t ∈ styleAbbrevs := by simpa using ht
    have he2 : e ∉ parentAbbrevs := by simpa using he
    unfold applyCmdTokens
    rw [h]
    simp [ht2, he2]

theorem c7_strict_vocabulary_witness :
    applyCmdTokens (str "'\x7bparent xyz data\x7d'") =
      Except.error (attrUnknownMsg (str "xyz")) ∧
    applyCmdTokens (str "'\x7bxyz style data\x7d'") =
      Except.error (elemUnknownMsg (str "xyz")) :=
  ⟨(c7_strict_vocabulary (str "'\x7bparent xyz data\x7d'") (str "") (str "parent") (str "xyz")
      (str "data") (str "") (by decide)).1 (by decide),
   (c7_strict_vocabulary (str "'\x7bxyz style data\x7d'") (str "") (str "xyz") (str "style")
      (str "data") (str "") (by decide)).2 (by decide) (by decide)⟩

theorem findCmdMatch_quote {s : List Char} :
    ∀ {q}, findCmdMatch s = some q → '\'' ∈ s := by
  induction s with
  | nil => intro q h; exact absurd h (by simp [findCmdMatch])
  | cons c rest ih =>
    intro q h
    unfold findCmdMatch at h
    split at h
    · rename_i hc
      exact hc.1 ▸ List.mem_cons_self c rest
    · cases hrec : findCmdMatch rest with
      | none => rw [hrec] at h; cases h
      | some q2 => exact List.mem_cons_of_mem c (ih hrec)

/-- C6 counterexample: the final `RE_CMD.replace_all(serialized, "")` pass
does not guarantee a marker-free result.  Deleting the matched marker
`'{p s d}'` splices the preceding apostrophe onto the remaining text and
the published output `<p>'{p s c}'</p>` again contains a directive-marker
substring. -/
theorem c6_strip_cex :
    stripCommands (str "<p>''\x7bp s d\x7d'\x7bp s c\x7d'</p>") =
      str "<p>'\x7bp s c\x7d'</p>" ∧
    findCmdMatch (stripCommands (str "<p>''\x7bp s d\x7d'\x7bp s c\x7d'</p>")) ≠ none :=
  ⟨by decide, by decide⟩

/-- C6 (amended): the strip pass deletes every marker that its scan
matches, and the published output is guaranteed marker-free whenever no
apostrophe remains in it; a deletion that splices an apostrophe onto a
remaining `{...}'` span can re-create a marker-shaped substring. -/
theorem c6_strip_markers (s : List Char) (h : '\'' ∉ stripCommands s) :
    findCmdMatch (stripCommands s) = none := by
  cases hm : findCmdMatch (stripCommands s) with
  | none => rfl
  | some q => exact absurd (findCmdMatch_quote hm) h

theorem c6_strip_markers_witness :
    findCmdMatch (stripCommands (str "<p>plain text</p>")) = none :=
  c6_strip_markers (str "<p>plain text</p>") (by decide)

/-! ## The variable-reference scanner consumes characters -/

theorem scanCloseQuote_cons (c : Char) (rest : List Char) :
    scanCloseQuote (c :: rest) =
      (if c = '\x7d' ∧ rest.head? = some '\'' then some ([], rest.tail)
       else if c = '\n' then none
       else (scanCloseQuote rest).map (fun p => (c :: p.1, p.2))) := rfl

theorem tryAfterVar_cons (c : Char) (rest : List Char) :
    tryAfterVar (c :: rest) =
      (if rsWhitespace c then
        match scanCloseQuote rest with
        | some (mid, r) => some (c :: mid ++ ['\x7d'], r)
        | none => none
      else if c = '\x7d' then
        if rest.head? = some '\'' then some (['\x7d'], rest.tail) else none
      else none) := rfl

theorem varGo_cons (v : List Char) (c : Char) (u2 : List Char) :
    varGo v (c :: u2) =
      (match tryAfterVar (c :: u2) with
       | some (a, r) => some (v, a, r)
       | none => if rsWhitespace c then none else varGo (v ++ [c]) u2) := rfl

theorem beforeScan_cons (c : Char) (u : List Char) :
    beforeScan (c :: u) =
      (if c = '$' then
        match matchVarAt u with
        | some (v, a, r) => some ([], v, a, r)
        | none => (beforeScan u).map (fun q => (c :: q.1, q.2))
      else if c = '\n' then none
      else (beforeScan u).map (fun q => (c :: q.1, q.2))) := rfl

theorem findVarMatch_cons (c : Char) (rest : List Char) :
    findVarMatch (c :: rest) =
      (if c = '\'' ∧ rest.head? = some '\x7b' then
        match beforeScan rest.tail with
        | some q => some ([], q)
        | none => (findVarMatch rest).map (fun q => (c :: q.1, q.2))
      else (findVarMatch rest).map (fun q => (c :: q.1, q.2))) := rfl

theorem scanCloseQuote_lt {s : List Char} :
    ∀ {p}, scanCloseQuote s = some p → p.2.length < s.length := by
  induction s with
  | nil => intro p h; exact absurd h (by simp [scanCloseQuote])
  | cons c rest ih =>
    intro p h
    rw [scanCloseQuote_cons] at h
    split at h
    · rename_i hc
      obtain rfl := (Option.some.inj h).symm
      cases rest with
      | nil => simp at hc
      | cons x t => simp; omega
    · split at h
      · cases h
      · cases hrec : scanCloseQuote rest with
        | none => rw [hrec] at h; cases h
        | some q =>
          rw [hrec] at h
          obtain rfl := (Option.some.inj (by simpa using h)).symm
          have := ih hrec
          simp
          omega

theorem tryAfterVar_lt {u : List Char} :
    ∀ {p}, tryAfterVar u = some p → p.2.length < u.length := by
  cases u with
  | nil => intro p h; exact absurd h (by simp [tryAfterVar])
  | cons c rest =>
    intro p h
    rw [tryAfterVar_cons] at h
    split at h
    · cases hscan : scanCloseQuote rest with
      | none => rw [hscan] at h; cases h
      | some q =>
        rw [hscan] at h
        obtain rfl := (Option.some.inj h).symm
        have := scanCloseQuote_lt hscan
        simp
        omega
    · split at h
      · split at h
        · rename_i hq
          obtain rfl := (Option.some.inj h).symm
          cases rest with
          | nil => simp at hq
          | cons x t => simp; omega
        · cases h
      · cases h

theorem varGo_lt {u : List Char} :
    ∀ {v p}, varGo v u = some p → p.2.2.length < u.length := by
  induction u with
  | nil => intro v p h; exact absurd h (by simp [varGo])
  | cons c rest ih =>
    intro v p h
    rw [varGo_cons] at h
    cases hta : tryAfterVar (c :: rest) with
    | some q =>
      rw [hta] at h
      obtain ⟨a, r⟩ := q
      obtain rfl := (Option.some.inj h).symm
      exact tryAfterVar_lt hta
    | none =>
      rw [hta] at h
      split at h
      · rename_i heq
        exact absurd heq (by simp)
      · split at h
        · cases h
        · have := ih h
          simp
          omega

theorem matchVarAt_cons (c : Char) (u : List Char) :
    matchVarAt (c :: u) = (if rsWhitespace c then none else varGo [c] u) := rfl

theorem matchVarAt_lt {u : List Char} :
    ∀ {p}, matchVarAt u = some p → p.2.2.length < u.length := by
  cases u with
  | nil => intro p h; exact absurd h (by simp [matchVarAt])
  | cons c rest =>
    intro p h
    rw [matchVarAt_cons] at h
    by_cases hws : rsWhitespace c = true
    · rw [if_pos hws] at h; cases h
    · rw [if_neg hws] at h
      have := varGo_lt h
      simp
      omega

theorem beforeScan_lt {s : List Char} :
    ∀ {p}, beforeScan s = some p → p.2.2.2.length < s.length := by
  induction s with
  | nil => intro p h; exact absurd h (by simp [beforeScan])
  | cons c rest ih =>
    intro p h
    rw [beforeScan_cons] at h
    split at h
    · cases hmv : matchVarAt rest with
      | some q =>
        rw [hmv] at h
        obtain ⟨v2, a2, r2⟩ := q
        obtain rfl := (Option.some.inj h).symm
        have := matchVarAt_lt hmv
        simp at this ⊢
        omega
      | none =>
        rw [hmv] at h
        cases hrec : beforeScan rest with
        | none => rw [hrec] at h; cases h
        | some q =>
          rw [hrec] at h
          obtain rfl := (Option.some.inj (by simpa using h)).symm
          have := ih hrec
          simp at this ⊢
          omega
    · split at h
      · cases h
      · cases hrec : beforeScan rest with
        | none => rw [hrec] at h; cases h
        | some q =>
          rw [hrec] at h
          obtain rfl := (Option.some.inj (by simpa using h)).symm
          have := ih hrec
          simp at this ⊢
          omega

theorem findVarMatch_rest_lt {s : List Char} :
    ∀ {p}, findVarMatch s = some p → p.2.2.2.2.length < s.length := by
  induction s with
  | nil => intro p h; exact absurd h (by simp [findVarMatch])
  | cons c rest ih =>
    intro p h
    rw [findVarMatch_cons] at h
    split at h
    · rename_i hc
      cases hbs : beforeScan rest.tail with
      | some q =>
        rw [hbs] at h
        obtain rfl := (Option.some.inj h).symm
        have := beforeScan_lt hbs
        cases rest with
        | nil => simp at hc
        | cons x t =>
          simp at this ⊢
          omega
      | none =>
        rw [hbs] at h
        cases hrec : findVarMatch rest with
        | none => rw [hrec] at h; cases h
        | some q =>
          rw [hrec] at h
          obtain rfl := (Option.some.inj (by simpa using h)).symm
          have := ih hrec
          simp at this ⊢
          omega
    · cases hrec : findVarMatch rest with
      | none => rw [hrec] at h; cases h
      | some q =>
        rw [hrec] at h
        obtain rfl := (Option.some.inj (by simpa using h)).symm
        have := ih hrec
        simp at this ⊢
        omega

/-- If some match of the scan carries a name missing from the store, the
fuelled `replace_all` worker aborts with the panic message of the first
such name. -/
theorem replaceVarsGo_error (m : List (List Char × List Char)) :
    ∀ (fuel : Nat) (s : List Char), s.length ≤ fuel →
      (∃ v ∈ varScanGo fuel s, List.lookup v m = none) →
      ∃ v, v ∈ varScanGo fuel s ∧ List.lookup v m = none ∧
        replaceVarsGo m fuel s = Except.error (varUnknownMsg v) := by
  intro fuel
  induction fuel with
  | zero =>
    intro s hle h
    obtain ⟨v, hv, -⟩ := h
    simp [varScanGo] at hv
  | succ f ih =>
    intro s hle h
    obtain ⟨v, hv, hlk⟩ := h
    cases hm : findVarMatch s with
    | none =>
      rw [show varScanGo (f + 1) s = [] from by simp [varScanGo, hm]] at hv
      simp at hv
    | some q =>
      obtain ⟨pre, before, vr, after, rest⟩ := q
      have hscan : varScanGo (f + 1) s = vr :: varScanGo f rest := by
        simp [varScanGo, hm]
      cases hlk2 : List.lookup vr m with
      | none =>
        refine ⟨vr, ?_, hlk2, ?_⟩
        · rw [hscan]; exact List.mem_cons_self vr _
        · simp [replaceVarsGo, hm, hlk2]
      | some val =>
        have hv2 : v ∈ varScanGo f rest := by
          rw [hscan] at hv
          rcases List.mem_cons.mp hv with h2 | h2
          · subst h2; rw [hlk2] at hlk; cases hlk
          · exact h2
        have hrest : rest.length ≤ f :=
          Nat.le_of_lt_succ (Nat.lt_of_lt_of_le (findVarMatch_rest_lt hm) hle)
        obtain ⟨w, hw1, hw2, hw3⟩ := ih rest hrest ⟨v, hv2, hlk⟩
        refine ⟨w, ?_, hw2, ?_⟩
        · rw [hscan]; exact List.mem_cons_of_mem vr hw1
        · simp [replaceVarsGo, hm, hlk2, hw3, Except.map]

/-- C2 counterexample: a document can contain a variable-reference marker
with an undefined name and still be processed successfully, with the
marker passed through: the reference `'{a$x ...}'` has a lazy `after` part
that swallows the nested marker `'{b$u}'`, so the undefined `u` is never
matched and survives in the output. -/
theorem c2_undefined_variable_cex :
    preprocessVariables (str "<'''x\x7bv\x7d'''>'\x7ba$x '\x7bb$u\x7d'") =
      Except.ok (str "'\x7bav '\x7bb$u\x7d'") ∧
    containsPat (str "'\x7bb$u\x7d'") (str "<'''x\x7bv\x7d'''>'\x7ba$x '\x7bb$u\x7d'") = true ∧
    containsPat (str "'\x7bb$u\x7d'") (str "'\x7bav '\x7bb$u\x7d'") = true ∧
    List.lookup (str "u") (parseVariables (str "<'''x\x7bv\x7d'''>'\x7ba$x '\x7bb$u\x7d'")) =
      none :=
  ⟨by rfl, by decide, by decide, by decide⟩

/-- C2 (amended): whenever the reference scan of the cleaned document
contains a match whose variable name is not a key of the store built from
the definition block, `preprocess_variables` aborts with the fatal error
naming an undefined variable of that scan; a marker only survives when it
is swallowed by the span of an earlier match. -/
theorem c2_undefined_variable (doc : List Char)
    (h : ∃ v ∈ varScan (clearVariables doc),
      List.lookup v (parseVariables doc) = none) :
    ∃ v, v ∈ varScan (clearVariables doc) ∧
      List.lookup v (parseVariables doc) = none ∧
      preprocessVariables doc = Except.error (varUnknownMsg v) :=
  replaceVarsGo_error (parseVariables doc) (clearVariables doc).length
    (clearVariables doc) (Nat.le_refl _) h

theorem c2_undefined_variable_witness :
    ∃ v, v ∈ varScan (clearVariables (str "x '\x7b$u\x7d' y")) ∧
      List.lookup v (parseVariables (str "x '\x7b$u\x7d' y")) = none ∧
      preprocessVariables (str "x '\x7b$u\x7d' y") = Except.error (varUnknownMsg v) :=
  c2_undefined_variable (str "x '\x7b$u\x7d' y") ⟨str "u", by decide, by decide⟩

/-! ## The definition block: first `<'''`, last `'''>` -/

theorem splitFirstPat_append {p : Char} {pt pre : List Char} (rest : List Char)
    (hpre : p ∉ pre) :
    splitFirstPat (p :: pt) (pre ++ (p :: pt) ++ rest) = some (pre, rest) := by
  induction pre with
  | nil =>
    show splitFirstPat (p :: pt) (p :: (pt ++ rest)) = some ([], rest)
    unfold splitFirstPat
    rw [if_pos (show (p :: pt).isPrefixOf (p :: (pt ++ rest)) = true from
      isPrefixOf_append_self (p :: pt) rest)]
    rw [show List.drop (p :: pt).length (p :: (pt ++ rest)) = rest from List.drop_left (p :: pt) rest]
  | cons c pre2 ih =>
    simp only [List.mem_cons, not_or] at hpre
    show splitFirstPat (p :: pt) (c :: (pre2 ++ (p :: pt) ++ rest)) = some (c :: pre2, rest)
    unfold splitFirstPat
    rw [isPrefixOf_cons_of_ne pt _ hpre.1]
    simp only [Bool.false_eq_true, if_false]
    rw [ih hpre.2]
    rfl

theorem splitFirstPat_eq {pat s a b : List Char} (h : splitFirstPat pat s = some (a, b)) :
    s = a ++ pat ++ b := by
  induction s generalizing a with
  | nil => exact absurd h (by simp [splitFirstPat])
  | cons c rest ih =>
    unfold splitFirstPat at h
    by_cases hp : pat.isPrefixOf (c :: rest) = true
    · rw [if_pos hp] at h
      obtain ⟨r, hr⟩ := isPrefixOf_ex hp
      rw [hr] at h ⊢
      rw [List.drop_left] at h
      obtain ⟨rfl, rfl⟩ := Prod.mk.inj (Option.some.inj h)
      rfl
    · rw [if_neg hp] at h
      cases hrec : splitFirstPat pat rest with
      | none => rw [hrec] at h; cases h
      | some q =>
        rw [hrec] at h
        simp only [Option.map] at h
        obtain ⟨rfl, rfl⟩ := Prod.mk.inj (Option.some.inj h).symm
        rw [ih (show splitFirstPat pat rest = some (q.1, q.2) from hrec)]
        rfl

theorem splitLastPat_none_of_not_contains {pat s : List Char} (hne : pat ≠ [])
    (h : containsPat pat s = false) : splitLastPat pat s = none := by
  induction s with
  | nil =>
    cases pat with
    | nil => exact absurd rfl hne
    | cons p pt => rfl
  | cons c rest ih =>
    unfold containsPat at h
    simp only [Bool.or_eq_false_iff] at h
    unfold splitLastPat
    rw [ih h.2, h.1]
    rfl

theorem splitLastPat_append {p : Char} {pt : List Char} (u v : List Char)
    (hnone : splitLastPat (p :: pt) (pt ++ v) = none) :
    splitLastPat (p :: pt) (u ++ (p :: pt) ++ v) = some (u, v) := by
  induction u with
  | nil =>
    show splitLastPat (p :: pt) (p :: (pt ++ v)) = some ([], v)
    unfold splitLastPat
    rw [hnone]
    rw [if_pos (show (p :: pt).isPrefixOf (p :: (pt ++ v)) = true from
      isPrefixOf_append_self (p :: pt) v)]
    rw [show List.drop (p :: pt).length (p :: (pt ++ v)) = v from List.drop_left (p :: pt) v]
  | cons c u2 ih =>
    show splitLastPat (p :: pt) (c :: (u2 ++ (p :: pt) ++ v)) = some (c :: u2, v)
    unfold splitLastPat
    rw [ih]

theorem containsPat_mono_right {pat b : List Char} (x : List Char)
    (h : containsPat pat b = true) : containsPat pat (x ++ b) = true := by
  induction x with
  | nil => exact h
  | cons c x2 ih =>
    show containsPat pat (c :: (x2 ++ b)) = true
    unfold containsPat
    rw [ih]
    simp

theorem containsPat_defClose_shift {post : List Char}
    (h : containsPat defClose post = false) :
    containsPat defClose (str "''>" ++ post) = false := by
  show containsPat defClose ('\'' :: '\'' :: '>' :: post) = false
  unfold containsPat containsPat containsPat
  rw [h]
  simp [defClose, str, List.isPrefixOf]

theorem findDefMatch_decomp (pre data post : List Char)
    (hpre : '<' ∉ pre)
    (hpost : containsPat defClose post = false) :
    findDefMatch (pre ++ defOpen ++ data ++ defClose ++ post) = some (pre, data, post) := by
  unfold findDefMatch
  have h1 : splitFirstPat defOpen (pre ++ defOpen ++ (data ++ defClose ++ post)) =
      some (pre, data ++ defClose ++ post) :=
    splitFirstPat_append (data ++ defClose ++ post) hpre
  rw [show pre ++ defOpen ++ data ++ defClose ++ post =
    pre ++ defOpen ++ (data ++ defClose ++ post) from by simp [List.append_assoc], h1]
  have h2 : splitLastPat defClose (data ++ defClose ++ post) = some (data, post) := by
    apply splitLastPat_append
    apply splitLastPat_none_of_not_contains (by simp [defClose, str])
    exact containsPat_defClose_shift hpost
  show (match splitLastPat defClose (data ++ defClose ++ post) with
    | none => none
    | some (d, rest) => some (pre, d, rest)) = some (pre, data, post)
  rw [h2]

theorem findDefMatch_none_of_no_close {post : List Char}
    (h : containsPat defClose post = false) : findDefMatch post = none := by
  unfold findDefMatch
  cases hsf : splitFirstPat defOpen post with
  | none => rfl
  | some q =>
    obtain ⟨a, b⟩ := q
    have hrec : post = a ++ defOpen ++ b := splitFirstPat_eq hsf
    have h1 : containsPat defClose b = false := by
      cases hc : containsPat defClose b with
      | false => rfl
      | true =>
        have hmono := containsPat_mono_right (a ++ defOpen) hc
        rw [← hrec, h] at hmono
        cases hmono
    show (match splitLastPat defClose b with
      | none => none
      | some (d, rest) => some (a, d, rest)) = none
    rw [splitLastPat_none_of_not_contains (by simp [defClose, str]) h1]

theorem clearVarsGo_none {s : List Char} (h : findDefMatch s = none) :
    ∀ fuel, clearVarsGo fuel s = s := by
  intro fuel
  cases fuel with
  | zero => rfl
  | succ f =>
    unfold clearVarsGo
    rw [h]

theorem clearVariables_step {s pre data post : List Char}
    (h : findDefMatch s = some (pre, data, post))
    (hpost : findDefMatch post = none) : clearVariables s = pre ++ post := by
  unfold clearVariables
  cases hl : s.length with
  | zero =>
    have hs : s = [] := List.length_eq_zero.mp hl
    subst hs
    simp [findDefMatch, splitFirstPat] at h
  | succ f =>
    show clearVarsGo (f + 1) s = pre ++ post
    unfold clearVarsGo
    rw [h]
    show pre ++ clearVarsGo f post = pre ++ post
    rw [clearVarsGo_none hpost f]

/-- C5 counterexample: with more than one definition block, the greedy
RE_DEF spans from the first `<'''` to the last `'''>`: the text `MID`
between the two blocks is stripped from the output even though it lies
outside both blocks, and the second block's pair `b{2}` is not stored under
the key `b` (the scan of the single greedy span mangles it). -/
theorem c5_definition_block_cex :
    preprocessVariables (str "<'''a\x7b1\x7d'''>MID<'''b\x7b2\x7d'''>tail") =
      Except.ok (str "tail") ∧
    str "tail" ≠ str "MIDtail" ∧
    List.lookup (str "b")
      (parseVariables (str "<'''a\x7b1\x7d'''>MID<'''b\x7b2\x7d'''>tail")) = none :=
  ⟨by rfl, by decide, by decide⟩

/-- C5 (amended): the store honors one definition span reaching from the
first `<'''` to the last `'''>`.  For a document with a single such block
(no `<` before it and no later `'''>`), the block is stripped, every
`key{value}` pair of its data is folded into the store with later
duplicate keys shadowing earlier ones, and the remaining document text is
subject only to reference substitution. -/
theorem c5_definition_block (pre data post : List Char)
    (hpre : '<' ∉ pre)
    (hpost : containsPat defClose post = false) :
    preprocessVariables (pre ++ defOpen ++ data ++ defClose ++ post) =
      replaceVariables (pairsGo data.length [] data) (pre ++ post) ∧
    List.lookup (str "a") (parseVariables (str "<'''a\x7b1\x7d a\x7b2\x7d'''>x")) =
      some (str "2") := by
  refine ⟨?_, by decide⟩
  have hd := findDefMatch_decomp pre data post hpre hpost
  have hclear : clearVariables (pre ++ defOpen ++ data ++ defClose ++ post) = pre ++ post :=
    clearVariables_step hd (findDefMatch_none_of_no_close hpost)
  have hparse : parseVariables (pre ++ defOpen ++ data ++ defClose ++ post) =
      pairsGo data.length [] data := by
    unfold parseVariables
    rw [hd]
  unfold preprocessVariables
  rw [hclear, hparse]

theorem c5_definition_block_witness :
    preprocessVariables
        (str "pre " ++ defOpen ++ str "k\x7bv\x7d" ++ defClose ++ str " '\x7b$k\x7d'") =
      replaceVariables (pairsGo (str "k\x7bv\x7d").length [] (str "k\x7bv\x7d"))
        (str "pre " ++ str " '\x7b$k\x7d'") :=
  (c5_definition_block (str "pre ") (str "k\x7bv\x7d") (str " '\x7b$k\x7d'")
    (by decide) (by decide)).1

/-! ## The orchestrator's greedy link regex -/

theorem takeWhile_all {p : Char → Bool} :
    ∀ {s : List Char}, (∀ c ∈ s, p c = true) → s.takeWhile p = s ∧ s.dropWhile p = [] := by
  intro s
  induction s with
  | nil => intro _; exact ⟨rfl, rfl⟩
  | cons c rest ih =>
    intro h
    have hc := h c (List.mem_cons_self c rest)
    have hr := ih (fun x hx => h x (List.mem_cons_of_mem c hx))
    constructor
    · rw [List.takeWhile_cons, if_pos hc, hr.1]
    · rw [List.dropWhile_cons, if_pos hc, hr.2]

theorem findLinkMatch_cons (c : Char) (rest : List Char) :
    findLinkMatch (c :: rest) =
      (if c = '[' then
        match tryLinkAt rest with
        | some q => some ([], q)
        | none => (findLinkMatch rest).map (fun q => (c :: q.1, q.2))
      else (findLinkMatch rest).map (fun q => (c :: q.1, q.2))) := rfl

theorem replaceLinksGo_nil (f : List Char → List Char → List Char) (fuel : Nat) :
    replaceLinksGo f fuel [] = [] := by
  cases fuel <;> rfl

/-- C10: the markdown-link regex of the orchestrator is greedy within a
line.  On a line holding two complete links, the single match spans from
the first `[` to the final `)`: its display text contains the first link
verbatim, only the last parenthesized target is handed to the resolver,
and the rewritten line is the resolver's output on that single pair (the
first link's target is never rewritten). -/
theorem c10_greedy_link (a x b y : List Char)
    (ha : '\n' ∉ a) (hx : '\n' ∉ x) (hb : '\n' ∉ b)
    (hy : '\n' ∉ y ∧ ')' ∉ y ∧ ']' ∉ y) :
    findLinkMatch (str "[" ++ a ++ str "](" ++ x ++ str ") [" ++ b ++ str "](" ++ y ++ str ")") =
      some ([], a ++ str "](" ++ x ++ str ") [" ++ b, y, []) ∧
    ∀ f, replaceLinks f
        (str "[" ++ a ++ str "](" ++ x ++ str ") [" ++ b ++ str "](" ++ y ++ str ")") =
      f (a ++ str "](" ++ x ++ str ") [" ++ b) y := by
  have hnotin : '\n' ∉ a ++ str "](" ++ x ++ str ") [" ++ b ++ str "](" ++ y ++ str ")" := by
    simp only [List.mem_append, not_or]
    exact ⟨⟨⟨⟨⟨⟨⟨ha, by decide⟩, hx⟩, by decide⟩, hb⟩, by decide⟩, hy.1⟩, by decide⟩
  have key : ∀ c ∈ a ++ str "](" ++ x ++ str ") [" ++ b ++ str "](" ++ y ++ str ")",
      (c != '\n') = true := by
    intro c hc
    have hcne : c ≠ '\n' := fun he => hnotin (he ▸ hc)
    simpa using hcne
  have h2 : splitLastPat [')']
      (a ++ str "](" ++ x ++ str ") [" ++ b ++ str "](" ++ y ++ str ")") =
      some (a ++ str "](" ++ x ++ str ") [" ++ b ++ str "](" ++ y, []) := by
    have hw := @splitLastPat_append ')' []
      (a ++ str "](" ++ x ++ str ") [" ++ b ++ str "](" ++ y) [] (by rfl)
    simpa [List.append_assoc] using hw
  have h3 : splitLastPat (str "](")
      (a ++ str "](" ++ x ++ str ") [" ++ b ++ str "](" ++ y) =
      some (a ++ str "](" ++ x ++ str ") [" ++ b, y) := by
    have hnone : splitLastPat (']' :: ['(']) ('(' :: y) = none :=
      splitLastPat_eq_none (by
        simp only [List.mem_cons, not_or]
        exact ⟨by decide, hy.2.2⟩)
    have hw := @splitLastPat_append ']' ['(']
      (a ++ str "](" ++ x ++ str ") [" ++ b) y hnone
    simpa [List.append_assoc] using hw
  have h1 : tryLinkAt (a ++ str "](" ++ x ++ str ") [" ++ b ++ str "](" ++ y ++ str ")") =
      some (a ++ str "](" ++ x ++ str ") [" ++ b, y, []) := by
    unfold tryLinkAt
    rw [(takeWhile_all key).1, (takeWhile_all key).2]
    simp only [h2, h3, List.append_nil]
  have hfind : findLinkMatch
      (str "[" ++ a ++ str "](" ++ x ++ str ") [" ++ b ++ str "](" ++ y ++ str ")") =
      some ([], a ++ str "](" ++ x ++ str ") [" ++ b, y, []) := by
    show findLinkMatch
      ('[' :: (a ++ str "](" ++ x ++ str ") [" ++ b ++ str "](" ++ y ++ str ")")) = _
    rw [findLinkMatch_cons, if_pos rfl, h1]
  refine ⟨hfind, fun f => ?_⟩
  have hfind2 : findLinkMatch
      ('[' :: (a ++ str "](" ++ x ++ str ") [" ++ b ++ str "](" ++ y ++ str ")")) =
      some ([], a ++ str "](" ++ x ++ str ") [" ++ b, y, []) := hfind
  show replaceLinksGo f
    (('[' :: (a ++ str "](" ++ x ++ str ") [" ++ b ++ str "](" ++ y ++ str ")")).length)
    ('[' :: (a ++ str "](" ++ x ++ str ") [" ++ b ++ str "](" ++ y ++ str ")")) = _
  show (match findLinkMatch
      ('[' :: (a ++ str "](" ++ x ++ str ") [" ++ b ++ str "](" ++ y ++ str ")")) with
    | none => '[' :: (a ++ str "](" ++ x ++ str ") [" ++ b ++ str "](" ++ y ++ str ")")
    | some (pre, title, uri, rest) => pre ++ f title uri ++ replaceLinksGo f
        (a ++ str "](" ++ x ++ str ") [" ++ b ++ str "](" ++ y ++ str ")").length rest) =
    f (a ++ str "](" ++ x ++ str ") [" ++ b) y
  rw [hfind2]
  show [] ++ f (a ++ str "](" ++ x ++ str ") [" ++ b) y ++ replaceLinksGo f
      (a ++ str "](" ++ x ++ str ") [" ++ b ++ str "](" ++ y ++ str ")").length [] =
    f (a ++ str "](" ++ x ++ str ") [" ++ b) y
  rw [replaceLinksGo_nil]
  simp

theorem c10_greedy_link_witness :
    findLinkMatch (str "[" ++ str "alt1" ++ str "](" ++ str "uri1" ++ str ") [" ++
        str "alt2" ++ str "](" ++ str "uri2" ++ str ")") =
      some ([], str "alt1](uri1) [alt2", str "uri2", []) :=
  ((c10_greedy_link (str "alt1") (str "uri1") (str "alt2") (str "uri2")
    (by decide) (by decide) (by decide) ⟨by decide, by decide, by decide⟩).1).trans (by decide)
